import Mathlib

/-!
# Sujiko solver: a shallow embedding of `Sujiko.cpp` and its verification

The C++ program solves Sujiko puzzles (a 3x3 grid holding the digits 1..9 once each,
constrained by the four sums of its 2x2 sub-squares and by optional clues) by walking
through all permutations of 1..9 with `std::next_permutation`.

Arrays `int x[9]` / `int x[4]` that belong to a puzzle are functions on `Fin 9` / `Fin 4`;
the range handed to `next_permutation` and read through `int *solution` is a `List Int`.
All values that take part in arithmetic are at most four summands of size at most 9 (or
four bytes of size at most 30), so the 32-bit operations never wrap; the packing of a puzzle
key nevertheless keeps the explicit reduction modulo `2 ^ 32`.

The global `std::set<unsigned int> allPossiblePuzzles` is the list of its keys, threaded
through the functions that read or change it.

Layout: the program, then the notions used to state and prove its properties, then the
termination argument of the search loop followed by the loop itself (a `do ... while`
that ends because every successful `next_permutation` moves strictly upwards among the
rearrangements of the guess) and by the parts of the program that call it (`main`, `Info`),
then the theorems.
-/

namespace SujikoCpp

/-! ## The program

### Data model -/

/-- The struct `Solution`: the nine cell values, row-major. -/
structure Solution where
  mValues : List Int
deriving DecidableEq, Repr

/-- The class `Sujiko`: nine clues (0 = blank) and the four circled sums. -/
structure Sujiko where
  mClues : Fin 9 → Int
  mCentres : Fin 4 → Int

/-- Reading `solution[i]` through the pointer `int *solution`. -/
def cell (solution : List Int) (i : Nat) : Int := solution.getD i 0

/-! ### `std::next_permutation` -/

/-- The swap step of `std::next_permutation`, on the already reversed (ascending) suffix:
the first element greater than the pivot `x` (the rightmost such element of the descending
suffix) is exchanged with `x`.  Returns the new pivot value and the new suffix, or `none`
when no element of the suffix is greater than `x`. -/
def swapFirstGreater (x : Int) : List Int → Option (Int × List Int)
  | [] => none
  | y :: ys =>
    if x < y then some (y, x :: ys)
    else
      match swapFirstGreater x ys with
      | some (z, zs) => some (z, y :: zs)
      | none => none

/-- The library routine `std::next_permutation(first, last)` on the range as a list.
It looks for the rightmost position `i` with `a[i] < a[i+1]` (the suffix behind it is then
non-increasing, which is exactly when the recursive call on the suffix reports `false` and
hands back the suffix reversed), swaps `a[i]` with the rightmost element of the suffix that
is greater than it, and reverses the suffix.  When there is no such position the whole range
is reversed and `false` is returned. -/
def next_permutation : List Int → Bool × List Int
  | [] => (false, [])
  | x :: t =>
    match next_permutation t with
    | (true, t') => (true, x :: t')
    | (false, t') =>
      match swapFirstGreater x t' with
      | some (y, s) => (true, y :: s)
      | none => (false, t' ++ [x])

/-! ### The solver

The search loop itself follows its termination argument further down. -/

/-- `Sujiko::isSumCheckOK`: the four sub-square sums against the circled numbers. -/
def Sujiko.isSumCheckOK (puz : Sujiko) (solution : List Int) : Bool :=
  if cell solution 0 + cell solution 1 + cell solution 3 + cell solution 4 ≠ puz.mCentres 0 then
    false
  else if cell solution 1 + cell solution 2 + cell solution 4 + cell solution 5
      ≠ puz.mCentres 1 then
    false
  else if cell solution 3 + cell solution 4 + cell solution 6 + cell solution 7
      ≠ puz.mCentres 2 then
    false
  else if cell solution 4 + cell solution 5 + cell solution 7 + cell solution 8
      ≠ puz.mCentres 3 then
    false
  else true

/-- The clue loop of `Sujiko::isValidSolution` over the remaining indices: the first
contradicted clue returns `false`. -/
def Sujiko.cluesAgree (puz : Sujiko) (solution : List Int) : List (Fin 9) → Bool
  | [] => true
  | i :: rest =>
    if puz.mClues i ≠ 0 ∧ puz.mClues i ≠ cell solution i.val then false
    else puz.cluesAgree solution rest

/-- `Sujiko::isValidSolution`: clue check for `i = 0..8`, then the sum check. -/
def Sujiko.isValidSolution (puz : Sujiko) (solution : List Int) : Bool :=
  if puz.cluesAgree solution (List.finRange 9) then puz.isSumCheckOK solution else false

/-- The initial guess `start_guess` of `Sujiko::allSolutions`. -/
def start_guess : List Int := [1, 2, 3, 4, 5, 6, 7, 8, 9]

/-! ### The catalogue of puzzles up to symmetry -/

/-- Reduction of an `unsigned int` value to 32 bits. -/
def u32 (n : Nat) : Nat := n % 2 ^ 32

/-- The key `a + (b << 8) + (c << 16) + (d << 24)` in `unsigned int` arithmetic. -/
def puzDefOf (a b c d : Nat) : Nat :=
  u32 (u32 (u32 (a + u32 (b <<< 8)) + u32 (c <<< 16)) + u32 (d <<< 24))

/-- The four bytes `puzDef & 0xff`, `(puzDef >> 8) & 0xff`, `(puzDef >> 16) & 0xff`,
`(puzDef >> 24) & 0xff` that `Info` reads back from a key. -/
def decodeKey (puzDef : Nat) : Nat × Nat × Nat × Nat :=
  (puzDef &&& 0xff, (puzDef >>> 8) &&& 0xff, (puzDef >>> 16) &&& 0xff,
    (puzDef >>> 24) &&& 0xff)

/-- `isTransformationKnown`: is the key of `(a, b, c, d)` in the set
(`find(puzDef) != end()`)? -/
def isTransformationKnown (allPossiblePuzzles : List Nat) (a b c d : Nat) : Bool :=
  let puzDef := puzDefOf a b c d
  decide (puzDef ∈ allPossiblePuzzles)

/-- `std::set<unsigned int>::insert` on the ascending sequence of keys. -/
def setInsert (k : Nat) : List Nat → List Nat
  | [] => [k]
  | x :: xs =>
    if k < x then k :: x :: xs
    else if k = x then x :: xs
    else x :: setInsert k xs

/-- The body of the innermost loop of `GenerateAllPossiblePuzzles`. -/
def generateStep (allPossiblePuzzles : List Nat) (a b c d : Nat) : List Nat :=
  if isTransformationKnown allPossiblePuzzles a b c d == false &&
      isTransformationKnown allPossiblePuzzles b a d c == false &&
      isTransformationKnown allPossiblePuzzles c d a b == false &&
      isTransformationKnown allPossiblePuzzles a c b d == false &&
      isTransformationKnown allPossiblePuzzles d b c a == false &&
      isTransformationKnown allPossiblePuzzles c a d b == false &&
      isTransformationKnown allPossiblePuzzles b d a c == false &&
      isTransformationKnown allPossiblePuzzles d c b a == false then
    let puzDef := puzDefOf a b c d
    setInsert puzDef allPossiblePuzzles
  else allPossiblePuzzles

/-- The values `10, 11, ..., 30` of each of the four loop variables. -/
def sumRange : List Nat := List.range' 10 21

/-- `GenerateAllPossiblePuzzles`: the set is cleared and the four nested loops run. -/
def GenerateAllPossiblePuzzles (allPossiblePuzzles : List Nat) : List Nat :=
  let cleared : List Nat := allPossiblePuzzles.take 0
  sumRange.foldl (fun s1 a =>
    sumRange.foldl (fun s2 b =>
      sumRange.foldl (fun s3 c =>
        sumRange.foldl (fun s4 d => generateStep s4 a b c d) s3) s2) s1) cleared

/-! ### Text input and output

A `std::string` is the list of its characters; a stream is the list of the characters not
yet read.  Characters are taken to be ASCII, so that `s[i] - '0'` is the character code
minus 48.  Reading `s[i]` at `i = s.size()` yields the terminating null character; reading
beyond that is undefined in the source, so the constructor is only described for texts that
keep at least nine characters (`DefinedText`).  The members of a `Sujiko` object are not
initialised by its constructors; `init` stands for what they hold before the constructor
body runs, and nothing is assumed about it. -/

/-- `isspace` in the "C" locale: space, `\t`, `\n`, `\v`, `\f`, `\r`. -/
def isspace (c : Char) : Bool :=
  c.toNat = 32 ∨ c.toNat = 9 ∨ c.toNat = 10 ∨ c.toNat = 11 ∨ c.toNat = 12 ∨ c.toNat = 13

/-- `getline(ss, digits, delim)`: the characters up to the first `delim` (which is consumed
and not stored) or to the end of the stream, and the rest of the stream. -/
def getline (ss : List Char) (delim : Char) : List Char × List Char :=
  (ss.takeWhile (fun c => c != delim), (ss.dropWhile (fun c => c != delim)).drop 1)

/-- Value of a run of decimal digits, most significant first, continuing from `acc`. -/
def decimalValue (acc : Nat) : List Char → Nat
  | [] => acc
  | c :: cs => decimalValue (acc * 10 + (c.toNat - 48)) cs

/-- `dss >> value` for an `int` on a stream holding `digits` (no white space is left in the
text).  At the end of the stream nothing is extracted and the value keeps what it held;
otherwise an optional sign and the following decimal digits are read, the value is 0 when
there is no digit, and a value outside the range of `int` becomes the nearest bound. -/
def streamExtractInt (digits : List Char) (old : Int) : Int :=
  match digits with
  | [] => old
  | c :: cs =>
    let negative : Bool := c = '-'
    let body : List Char := if c = '-' ∨ c = '+' then cs else c :: cs
    let run : List Char := body.takeWhile Char.isDigit
    if run = [] then 0
    else
      let magnitude : Int := (decimalValue 0 run : Int)
      let value : Int := if negative then -magnitude else magnitude
      if value < -2147483648 then -2147483648
      else if 2147483647 < value then 2147483647
      else value

/-- The constructor `Sujiko::Sujiko(string s)`: the resulting object and the lines printed.
The model describes the source on the texts of `DefinedText` (see there), which is where it
is used; outside them the source has undefined behaviour (or, for characters beyond ASCII,
a value of `s[i] - '0'` that depends on the signedness of `char`) and the value of this
function means nothing. -/
def Sujiko.ofString (init : Sujiko) (s : List Char) : Sujiko × List String :=
  let s1 := s.filter (fun c => !isspace c)
  let clues : Fin 9 → Int := fun i => ((s1.getD i.val (Char.ofNat 0)).toNat : Int) - 48
  if s1.getD 9 (Char.ofNat 0) ≠ '/' then
    ({ mClues := clues, mCentres := init.mCentres }, ["Parse Error"])
  else
    let ss0 := s1.drop 10
    let f0 := getline ss0 ','
    let c0 := streamExtractInt f0.1 (init.mCentres 0)
    let f1 := getline f0.2 ','
    let c1 := streamExtractInt f1.1 (init.mCentres 1)
    let f2 := getline f1.2 ','
    let c2 := streamExtractInt f2.1 (init.mCentres 2)
    let f3 := getline f2.2 ','
    let c3 := streamExtractInt f3.1 (init.mCentres 3)
    ({ mClues := clues, mCentres := fun k => [c0, c1, c2, c3].getD k.val 0 }, [])

/-- The texts on which the constructor has defined behaviour that the model describes:
ASCII characters only, of which at least nine are left when white space is removed.  The
source reads `s[0]` to `s[9]` without looking at the length, and index 9 is inside the
string or at its terminating null character exactly when nine characters are left; with
fewer the source reads past the end of the string, which is undefined. -/
def DefinedText (s : List Char) : Prop :=
  (∀ c ∈ s, c.toNat < 128) ∧ 9 ≤ (s.filter (fun c => !isspace c)).length

/-- `Sujiko::DisplayGiven`: a blank for 0, the number otherwise. -/
def DisplayGiven (g : Int) : String := if g = 0 then " " else toString g

/-- `Sujiko::Display`: the five lines of the puzzle layout. -/
def Sujiko.Display (puz : Sujiko) : List String :=
  [DisplayGiven (puz.mClues 0) ++ "  " ++ DisplayGiven (puz.mClues 1) ++ "  "
      ++ DisplayGiven (puz.mClues 2),
   " " ++ toString (puz.mCentres 0) ++ " " ++ toString (puz.mCentres 1),
   DisplayGiven (puz.mClues 3) ++ "  " ++ DisplayGiven (puz.mClues 4) ++ "  "
      ++ DisplayGiven (puz.mClues 5),
   " " ++ toString (puz.mCentres 2) ++ " " ++ toString (puz.mCentres 3),
   DisplayGiven (puz.mClues 6) ++ "  " ++ DisplayGiven (puz.mClues 7) ++ "  "
      ++ DisplayGiven (puz.mClues 8)]

/-- `Solution::DisplaySolution`: the three rows of the grid. -/
def Solution.DisplaySolution (s : Solution) : List String :=
  [toString (cell s.mValues 0) ++ " " ++ toString (cell s.mValues 1) ++ " "
      ++ toString (cell s.mValues 2),
   toString (cell s.mValues 3) ++ " " ++ toString (cell s.mValues 4) ++ " "
      ++ toString (cell s.mValues 5),
   toString (cell s.mValues 6) ++ " " ++ toString (cell s.mValues 7) ++ " "
      ++ toString (cell s.mValues 8)]

/-- The text `Info` builds for a key: `000000000/` followed by the four bytes of the key in
decimal, separated by commas. -/
def puzDefString (puzDef : Nat) : List Char :=
  ['0', '0', '0', '0', '0', '0', '0', '0', '0', '/']
    ++ Nat.toDigits 10 (decodeKey puzDef).1 ++ [',']
    ++ Nat.toDigits 10 (decodeKey puzDef).2.1 ++ [',']
    ++ Nat.toDigits 10 (decodeKey puzDef).2.2.1 ++ [',']
    ++ Nat.toDigits 10 (decodeKey puzDef).2.2.2

/-- The counters of `Info` and the lines it has printed. -/
structure InfoState where
  count : Int
  bestSolCount : Int
  singleSolCount : Int
  anySolCount : Int
  out : List String

/-! ## Notions used in the statements and in the proofs -/

/-- Lexicographic order on integer sequences, the order `std::next_permutation` walks. -/
abbrev LexLt (p q : List Int) : Prop := List.Lex (· < ·) p q

/-- Number of rearrangements of `g` that come lexicographically after `g`
(with multiplicity); it drops at every successful `next_permutation`. -/
def stepsLeft (g : List Int) : Nat :=
  g.permutations.countP (fun p => decide (LexLt g p))

/-- What a `true` result of `next_permutation` means: `g2` is the rearrangement of `g`
that follows `g` immediately in lexicographic order. -/
def IsNext (g g2 : List Int) : Prop :=
  g2.Perm g ∧ LexLt g g2 ∧ ∀ p : List Int, p.Perm g → LexLt g p → p = g2 ∨ LexLt g2 p

/-- What a `false` result of `next_permutation` means: `g` is the last rearrangement and
`g2` is the first (ascending) one. -/
def IsLast (g g2 : List Int) : Prop :=
  g2.Perm g ∧ (∀ p : List Int, p.Perm g → ¬ LexLt g p) ∧ g2.Sorted (· ≤ ·)

/-- The four sub-square sums of a grid equal the four circled numbers, in order. -/
def SumsMatch (puz : Sujiko) (solution : List Int) : Prop :=
  cell solution 0 + cell solution 1 + cell solution 3 + cell solution 4 = puz.mCentres 0 ∧
  cell solution 1 + cell solution 2 + cell solution 4 + cell solution 5 = puz.mCentres 1 ∧
  cell solution 3 + cell solution 4 + cell solution 6 + cell solution 7 = puz.mCentres 2 ∧
  cell solution 4 + cell solution 5 + cell solution 7 + cell solution 8 = puz.mCentres 3

/-- The grid carries the clue at every position whose clue is not blank. -/
def CluesMatch (puz : Sujiko) (solution : List Int) : Prop :=
  ∀ i : Fin 9, puz.mClues i ≠ 0 → cell solution i.val = puz.mClues i

/-- A puzzle without clues whose circled sums are `a b c d` (the puzzle that the text
`000000000/a,b,c,d` denotes). -/
def blankPuzzle (a b c d : Int) : Sujiko :=
  { mClues := fun _ => 0, mCentres := fun k => [a, b, c, d].getD k.val 0 }

/-! ### A pruned search for evaluating concrete puzzles

The centre `e` and the cells `a b` are chosen and `d` follows from the first sum; then `c`
is chosen and `f` follows from the second sum; then `g` is chosen and `h`, `i` follow from
the third and fourth sums.  Only grids of nine pairwise different digits are kept. -/

/-- Last level of the pruned search: all nine cells are known. -/
def fastSolveI (a b c d e f g h i : Int) : List (List Int) :=
  if i = 45 - a - b - c - d - e - f - g - h then [[a, b, c, d, e, f, g, h, i]] else []

/-- Level of the pruned search at which `g` has been chosen. -/
def fastSolveG (s2 s3 a b c d e f g : Int) : List (List Int) :=
  if g = e ∨ g = a ∨ g = b ∨ g = c ∨ g = d ∨ g = f
      ∨ ¬ (1 ≤ s2 - d - e - g ∧ s2 - d - e - g ≤ 9)
      ∨ s2 - d - e - g = e ∨ s2 - d - e - g = a ∨ s2 - d - e - g = b ∨ s2 - d - e - g = c
      ∨ s2 - d - e - g = d ∨ s2 - d - e - g = f ∨ s2 - d - e - g = g then []
  else fastSolveI a b c d e f g (s2 - d - e - g) (s3 - e - f - (s2 - d - e - g))

/-- Level of the pruned search at which `c` has been chosen. -/
def fastSolveC (s1 s2 s3 a b d e c : Int) : List (List Int) :=
  if c = e ∨ c = a ∨ c = b ∨ c = d ∨ ¬ (1 ≤ s1 - b - c - e ∧ s1 - b - c - e ≤ 9)
      ∨ s1 - b - c - e = e ∨ s1 - b - c - e = a ∨ s1 - b - c - e = b
      ∨ s1 - b - c - e = d ∨ s1 - b - c - e = c then []
  else start_guess.flatMap (fastSolveG s2 s3 a b c d e (s1 - b - c - e))

/-- Level of the pruned search at which `e`, `a` and `b` have been chosen. -/
def fastSolveB (s0 s1 s2 s3 e a b : Int) : List (List Int) :=
  if a = e ∨ b = e ∨ b = a ∨ ¬ (1 ≤ s0 - a - b - e ∧ s0 - a - b - e ≤ 9) ∨ s0 - a - b - e = e
      ∨ s0 - a - b - e = a ∨ s0 - a - b - e = b then []
  else start_guess.flatMap (fastSolveC s1 s2 s3 a b (s0 - a - b - e) e)

/-- The pruned search for the puzzles without clues whose sums are `s0 s1 s2 s3`. -/
def fastSolve (s0 s1 s2 s3 : Int) : List (List Int) :=
  start_guess.flatMap fun e =>
    start_guess.flatMap fun a => start_guess.flatMap (fastSolveB s0 s1 s2 s3 e a)

instance (puz : Sujiko) (p : List Int) : Decidable (SumsMatch puz p) := by
  unfold SumsMatch
  infer_instance

/-- The eight rearrangements of a quadruple tested by `GenerateAllPossiblePuzzles`, in the
order of the source. -/
def images (t : Nat × Nat × Nat × Nat) : List (Nat × Nat × Nat × Nat) :=
  match t with
  | (a, b, c, d) =>
    [(a, b, c, d), (b, a, d, c), (c, d, a, b), (a, c, b, d), (d, b, c, a), (c, a, d, b),
     (b, d, a, c), (d, c, b, a)]

/-- The quadruple lies in the domain `[10,30]^4`. -/
def InDomain (t : Nat × Nat × Nat × Nat) : Prop :=
  (10 ≤ t.1 ∧ t.1 ≤ 30) ∧ (10 ≤ t.2.1 ∧ t.2.1 ≤ 30) ∧ (10 ≤ t.2.2.1 ∧ t.2.2.1 ≤ 30) ∧
    (10 ≤ t.2.2.2 ∧ t.2.2.2 ≤ 30)

/-- Position of a quadruple in the iteration order of the nested loops (`a` outermost). -/
def code (t : Nat × Nat × Nat × Nat) : Nat :=
  ((t.1 * 256 + t.2.1) * 256 + t.2.2.1) * 256 + t.2.2.2

/-- The quadruple comes first, in iteration order, among its eight images. -/
def IsCanonical (t : Nat × Nat × Nat × Nat) : Prop :=
  ∀ u ∈ images t, code t ≤ code u

/-- All quadruples in the order in which the nested loops visit them. -/
def allTuples : List (Nat × Nat × Nat × Nat) :=
  sumRange.flatMap fun a => sumRange.flatMap fun b => sumRange.flatMap fun c =>
    sumRange.map fun d => (a, b, c, d)

/-- The key of a quadruple. -/
def packTuple (t : Nat × Nat × Nat × Nat) : Nat := puzDefOf t.1 t.2.1 t.2.2.1 t.2.2.2

/-- One pass through the body of the innermost loop, at the quadruple `t`. -/
def stepTuple (s : List Nat) (t : Nat × Nat × Nat × Nat) : List Nat :=
  generateStep s t.1 t.2.1 t.2.2.1 t.2.2.2

instance (t : Nat × Nat × Nat × Nat) : Decidable (IsCanonical t) := by
  unfold IsCanonical
  infer_instance

/-- State of the set after the loops have visited the quadruples of `P`. -/
def GenInv (P : List (Nat × Nat × Nat × Nat)) (s : List Nat) : Prop :=
  (∀ k, k ∈ s ↔ ∃ t ∈ P, IsCanonical t ∧ k = packTuple t) ∧
    s.length = P.countP (fun t => decide (IsCanonical t)) ∧ s.Nodup

/-- Number of `d` in `10..30` for which `(a, b, c, d)` is canonical. -/
def countD (a b c : Nat) : Nat :=
  if a ≤ b ∧ b ≤ c then 31 - (if a < b then a else if b < c then c else a) else 0

/-- The puzzle with the sums of `puz` and all clues blank. -/
def Sujiko.withoutClues (puz : Sujiko) : Sujiko :=
  { mClues := fun _ => 0, mCentres := puz.mCentres }

/-- The nine clues of a puzzle as a grid. -/
def Sujiko.clueGrid (puz : Sujiko) : List Int := List.ofFn puz.mClues

/-- The puzzle whose clues are the grid 4,2,6,3,1,5,8,7,9 and whose sums are
(10,14,19,22). -/
def solvedPuzzle : Sujiko :=
  { mClues := fun i => [4, 2, 6, 3, 1, 5, 8, 7, 9].getD i.val 0,
    mCentres := fun k => [10, 14, 19, 22].getD k.val 0 }

/-- The definition string `000708000/22,15,17,21`. -/
def exampleDefinition : List Char :=
  ['0', '0', '0', '7', '0', '8', '0', '0', '0', '/', '2', '2', ',', '1', '5', ',', '1', '7',
   ',', '2', '1']

/-- The quadruple `t` is lexicographically (first component most significant) at most `u`. -/
def LexLe4 (t u : Nat × Nat × Nat × Nat) : Prop :=
  t.1 < u.1 ∨ (t.1 = u.1 ∧ (t.2.1 < u.2.1 ∨ (t.2.1 = u.2.1 ∧
    (t.2.2.1 < u.2.2.1 ∨ (t.2.2.1 = u.2.2.1 ∧ t.2.2.2 ≤ u.2.2.2)))))

/-- Component `i` of a quadruple (0 = top-left, 1 = top-right, 2 = bottom-left,
3 = bottom-right circle). -/
def component (t : Nat × Nat × Nat × Nat) (i : Fin 4) : Nat :=
  [t.1, t.2.1, t.2.2.1, t.2.2.2].getD i.val 0

/-- The quadruple whose component `i` is component `σ i` of `t`. -/
def rearrange (σ : Fin 4 → Fin 4) (t : Nat × Nat × Nat × Nat) : Nat × Nat × Nat × Nat :=
  (component t (σ 0), component t (σ 1), component t (σ 2), component t (σ 3))

/-- The position map that sends `0, 1, 2, 3` to `i0, i1, i2, i3`. -/
def positionMap (i0 i1 i2 i3 : Fin 4) : Fin 4 → Fin 4 :=
  fun i => [i0, i1, i2, i3].getD i.val 0

/-- The eight rearrangements of `GenerateAllPossiblePuzzles` as maps of positions, in the
order of the source: `(a,b,c,d)`, `(b,a,d,c)`, `(c,d,a,b)`, `(a,c,b,d)`, `(d,b,c,a)`,
`(c,a,d,b)`, `(b,d,a,c)`, `(d,c,b,a)`. -/
def positionMaps : List (Fin 4 → Fin 4) :=
  [positionMap 0 1 2 3, positionMap 1 0 3 2, positionMap 2 3 0 1, positionMap 0 2 1 3,
   positionMap 3 1 2 0, positionMap 2 0 3 1, positionMap 1 3 0 2, positionMap 3 2 1 0]

/-- Two positions are neighbours on the square of the four circles (top-left, top-right,
bottom-left, bottom-right): they differ and are not diagonally opposite. -/
def Adjacent (i j : Fin 4) : Prop := i ≠ j ∧ i.val + j.val ≠ 3

instance (i j : Fin 4) : Decidable (Adjacent i j) := by
  unfold Adjacent
  infer_instance

/-- The last permutation, at which `next_permutation` reports `false`. -/
def last_guess : List Int := [9, 8, 7, 6, 5, 4, 3, 2, 1]

/-- The grid mirrored left to right (columns 0 and 2 exchanged). -/
def mirrorGrid (r : List Int) : List Int :=
  [cell r 2, cell r 1, cell r 0, cell r 5, cell r 4, cell r 3, cell r 8, cell r 7, cell r 6]

/-- The grid reflected in its main diagonal (rows and columns exchanged). -/
def transposeGrid (r : List Int) : List Int :=
  [cell r 0, cell r 3, cell r 6, cell r 1, cell r 4, cell r 7, cell r 2, cell r 5, cell r 8]

/-! ## Termination of the search loop -/

theorem countP_lt_of_imp {α : Type} (p q : α → Bool) (l : List α)
    (himp : ∀ x ∈ l, p x = true → q x = true)
    (hex : ∃ x ∈ l, q x = true ∧ p x = false) : l.countP p < l.countP q := by
  induction l with
  | nil => obtain ⟨x, hx, _⟩ := hex; cases hx
  | cons a l ih =>
    have hle : l.countP p ≤ l.countP q :=
      List.countP_mono_left (fun x hx => himp x (List.mem_cons_of_mem _ hx))
    by_cases hpa : p a = true
    · have hqa : q a = true := himp a (List.mem_cons_self _ _) hpa
      have hex2 : ∃ x ∈ l, q x = true ∧ p x = false := by
        obtain ⟨x, hx, hq, hp⟩ := hex
        rcases List.mem_cons.1 hx with rfl | hx
        · rw [hpa] at hp; cases hp
        · exact ⟨x, hx, hq, hp⟩
      have := ih (fun x hx => himp x (List.mem_cons_of_mem _ hx)) hex2
      simp [List.countP_cons, hpa, hqa]
      omega
    · by_cases hqa : q a = true
      · simp [List.countP_cons, hpa, hqa]
        omega
      · have hex2 : ∃ x ∈ l, q x = true ∧ p x = false := by
          obtain ⟨x, hx, hq, hp⟩ := hex
          rcases List.mem_cons.1 hx with rfl | hx
          · exact absurd hq hqa
          · exact ⟨x, hx, hq, hp⟩
        have := ih (fun x hx => himp x (List.mem_cons_of_mem _ hx)) hex2
        simp [List.countP_cons, hpa, hqa]
        omega

theorem lexLt_trans {p q r : List Int} (h1 : LexLt p q) (h2 : LexLt q r) : LexLt p r :=
  trans_of (List.Lex (· < ·)) h1 h2

theorem lexLt_irrefl (p : List Int) : ¬ LexLt p p :=
  irrefl_of (List.Lex (· < ·)) p

theorem lexLt_trichotomy (p q : List Int) : LexLt p q ∨ p = q ∨ LexLt q p :=
  trichotomous_of (List.Lex (· < ·)) p q

/-- An ascending list is the least of its rearrangements. -/
theorem sorted_least (l : List Int) (hs : l.Sorted (· ≤ ·)) :
    ∀ p : List Int, p.Perm l → p = l ∨ LexLt l p := by
  induction l with
  | nil => intro p hp; left; exact hp.eq_nil
  | cons a l ih =>
    intro p hp
    cases p with
    | nil => exact absurd hp.symm.eq_nil (by simp)
    | cons b q =>
      have hb : b ∈ a :: l := hp.subset (List.mem_cons_self _ _)
      have hab : a ≤ b := by
        rcases List.mem_cons.1 hb with h | h
        · exact h ▸ le_refl _
        · exact List.rel_of_sorted_cons hs b h
      rcases lt_or_eq_of_le hab with h | h
      · right; exact List.Lex.rel h
      · subst h
        have hq : q.Perm l := (List.perm_cons a).1 hp
        rcases ih hs.of_cons q hq with h | h
        · left; rw [h]
        · right; exact List.Lex.cons h

theorem swapFirstGreater_none (x : Int) (l : List Int) (h : swapFirstGreater x l = none) :
    ∀ z ∈ l, z ≤ x := by
  induction l with
  | nil => intro z hz; cases hz
  | cons a l ih =>
    intro z hz
    unfold swapFirstGreater at h
    split at h
    · cases h
    · rename_i hxa
      split at h
      · cases h
      · rename_i hrec
        rcases List.mem_cons.1 hz with rfl | hz
        · exact not_lt.1 hxa
        · exact ih hrec z hz

theorem swapFirstGreater_some (x : Int) (l : List Int) (y : Int) (s : List Int)
    (h : swapFirstGreater x l = some (y, s)) :
    x < y ∧ (y :: s).Perm (x :: l) := by
  induction l generalizing y s with
  | nil => cases h
  | cons a l ih =>
    unfold swapFirstGreater at h
    split at h
    · rename_i hxa
      cases h
      exact ⟨hxa, List.Perm.swap _ _ _⟩
    · split at h
      · rename_i z zs hrec
        cases h
        obtain ⟨h1, h2⟩ := ih _ _ hrec
        refine ⟨h1, ?_⟩
        exact (List.Perm.swap _ _ _).trans ((h2.cons a).trans (List.Perm.swap _ _ _))
      · cases h

theorem swapFirstGreater_sorted (x : Int) (l : List Int) (y : Int) (s : List Int)
    (hs : l.Sorted (· ≤ ·)) (h : swapFirstGreater x l = some (y, s)) :
    s.Sorted (· ≤ ·) ∧ ∀ z ∈ l, x < z → y ≤ z := by
  induction l generalizing y s with
  | nil => cases h
  | cons a l ih =>
    have hal : ∀ b ∈ l, a ≤ b := fun b hb => List.rel_of_sorted_cons hs b hb
    unfold swapFirstGreater at h
    split at h
    · rename_i hxa
      cases h
      constructor
      · refine List.sorted_cons.2 ⟨?_, hs.of_cons⟩
        intro b hb
        exact le_trans (le_of_lt hxa) (hal b hb)
      · intro z hz _
        rcases List.mem_cons.1 hz with rfl | hz
        · exact le_refl _
        · exact hal z hz
    · rename_i hxa
      split at h
      · rename_i z zs hrec
        cases h
        obtain ⟨h1, h2⟩ := ih _ _ hs.of_cons hrec
        obtain ⟨_, hperm⟩ := swapFirstGreater_some _ _ _ _ hrec
        constructor
        · refine List.sorted_cons.2 ⟨?_, h1⟩
          intro b hb
          have : b ∈ x :: l := hperm.subset (List.mem_cons_of_mem _ hb)
          rcases List.mem_cons.1 this with rfl | hbl
          · exact not_lt.1 hxa
          · exact hal b hbl
        · intro w hw hxw
          rcases List.mem_cons.1 hw with rfl | hw
          · exact absurd hxw hxa
          · exact h2 w hw hxw
      · cases h

theorem next_permutation_spec (g : List Int) :
    (∀ g2, next_permutation g = (true, g2) → IsNext g g2) ∧
    (∀ g2, next_permutation g = (false, g2) → IsLast g g2) := by
  induction g with
  | nil =>
    constructor
    · intro g2 h; simp [next_permutation] at h
    · intro g2 h
      simp [next_permutation] at h
      subst h
      refine ⟨List.Perm.refl _, ?_, List.sorted_nil⟩
      intro p hp hlt
      cases hlt
      exact List.cons_ne_nil _ _ hp.eq_nil
  | cons x t ih =>
    obtain ⟨ihT, ihF⟩ := ih
    unfold next_permutation
    split
    · rename_i t2 hrec
      obtain ⟨hperm, hlt, hsucc⟩ := ihT t2 hrec
      constructor
      · intro g2 h
        cases h
        refine ⟨hperm.cons x, List.Lex.cons hlt, ?_⟩
        intro p hp hxp
        cases hxp with
        | cons hq =>
          rename_i q
          have hq2 : q.Perm t := (List.perm_cons x).1 hp
          rcases hsucc q hq2 hq with h | h
          · left; rw [h]
          · right; exact List.Lex.cons h
        | rel hr => right; exact List.Lex.rel hr
      · intro g2 h; cases h
    · rename_i t2 hrec
      obtain ⟨hperm, hmax, hsorted⟩ := ihF t2 hrec
      split
      · rename_i y s hswap
        obtain ⟨hxy, hsp⟩ := swapFirstGreater_some _ _ _ _ hswap
        obtain ⟨hss, hymin⟩ := swapFirstGreater_sorted _ _ _ _ hsorted hswap
        constructor
        · intro g2 h
          cases h
          refine ⟨hsp.trans (hperm.cons x), List.Lex.rel hxy, ?_⟩
          intro p hp hxp
          cases hxp with
          | cons hq =>
            rename_i q
            exact absurd hq (hmax q ((List.perm_cons x).1 hp))
          | rel hr =>
            rename_i z q
            have hz : z ∈ x :: t := hp.subset (List.mem_cons_self _ _)
            have hzt : z ∈ t2 := by
              rcases List.mem_cons.1 hz with h | h
              · exact absurd hr (by rw [h]; exact lt_irrefl _)
              · exact hperm.symm.subset h
            rcases lt_or_eq_of_le (hymin z hzt hr) with h | h
            · right; exact List.Lex.rel h
            · subst h
              have hqs : q.Perm s :=
                (List.perm_cons y).1 (hp.trans ((hperm.symm.cons x).trans hsp.symm))
              rcases sorted_least s hss q hqs with h | h
              · left; rw [h]
              · right; exact List.Lex.cons h
        · intro g2 h; cases h
      · rename_i hswap
        have hle := swapFirstGreater_none _ _ hswap
        constructor
        · intro g2 h; cases h
        · intro g2 h
          cases h
          refine ⟨?_, ?_, ?_⟩
          · exact (List.perm_append_singleton x t2).trans (hperm.cons x)
          · intro p hp hxp
            cases hxp with
            | cons hq =>
              rename_i q
              exact hmax q ((List.perm_cons x).1 hp) hq
            | rel hr =>
              rename_i z q
              have hz : z ∈ x :: t := hp.subset (List.mem_cons_self _ _)
              rcases List.mem_cons.1 hz with h | h
              · exact absurd hr (by rw [h]; exact lt_irrefl _)
              · exact absurd hr (not_lt.2 (hle z (hperm.symm.subset h)))
          · refine List.pairwise_append.2 ⟨hsorted, List.pairwise_singleton _ _, ?_⟩
            intro a ha b hb
            rw [List.mem_singleton.1 hb]
            exact hle a ha

theorem stepsLeft_lt (g g2 : List Int) (h : next_permutation g = (true, g2)) :
    stepsLeft g2 < stepsLeft g := by
  obtain ⟨hperm, hlt, _⟩ := (next_permutation_spec g).1 g2 h
  unfold stepsLeft
  rw [List.Perm.countP_eq _ hperm.permutations]
  apply countP_lt_of_imp
  · intro p _ hp
    have hp2 : LexLt g2 p := of_decide_eq_true hp
    exact decide_eq_true (lexLt_trans hlt hp2)
  · refine ⟨g2, List.mem_permutations.2 hperm, decide_eq_true hlt, ?_⟩
    exact decide_eq_false (lexLt_irrefl g2)

/-! ## The search loop of `Sujiko::allSolutions` -/

/-- The `do { ... } while (next_permutation(...))` loop of `Sujiko::allSolutions`, entered
with the current `guess` and the `results` collected so far. -/
def Sujiko.searchLoop (puz : Sujiko) (guess : Solution) (results : List Solution) :
    List Solution :=
  let results2 := if puz.isValidSolution guess.mValues then results ++ [guess] else results
  match h : next_permutation guess.mValues with
  | (true, g2) => puz.searchLoop { guess with mValues := g2 } results2
  | (false, _) => results2
termination_by stepsLeft guess.mValues
decreasing_by exact stepsLeft_lt _ _ h

/-- `Sujiko::allSolutions(results)`: `results.clear()`, then the loop from `start_guess`
collects every valid guess. -/
def Sujiko.allSolutions (puz : Sujiko) (results : List Solution) : List Solution :=
  let cleared : List Solution := results.take 0
  let guess : Solution := { mValues := start_guess }
  puz.searchLoop guess cleared

/-- `Sujiko::countSolutions`: the size of the vector filled by `allSolutions`. -/
def Sujiko.countSolutions (puz : Sujiko) : Int :=
  let solutions : List Solution := []
  ((puz.allSolutions solutions).length : Int)

/-- The guesses the loop of `allSolutions` tests, in order, when entered with `g`. -/
def candidatesFrom (g : List Int) : List (List Int) :=
  match h : next_permutation g with
  | (true, g2) => g :: candidatesFrom g2
  | (false, _) => [g]
termination_by stepsLeft g
decreasing_by exact stepsLeft_lt _ _ h

/-! ### The main program and `Info` -/

/-- The `-s` branch of `main` for the definition string `arg`: the lines printed and the
vector `solutions` filled by `allSolutions`. -/
def mainSolve (init : Sujiko) (arg : List Char) : List String × List Solution :=
  let built := Sujiko.ofString init arg
  let puz := built.1
  let solutions := puz.allSolutions []
  (built.2 ++ ["Solving Puzzle:"] ++ puz.Display
      ++ ["Found " ++ toString solutions.length ++ " solutions:"]
      ++ solutions.flatMap (fun s => s.DisplaySolution ++ [""]),
    solutions)

/-- One pass through the loop body of `Info`, for the key `puzDef`. -/
def infoStep (init : Sujiko) (st : InfoState) (puzDef : Nat) : InfoState :=
  let count := st.count + 1
  let puzDefStr := puzDefString puzDef
  let built := Sujiko.ofString init puzDefStr
  let puz := built.1
  let solCount := puz.countSolutions
  if solCount > 0 then
    { count := count
      anySolCount := st.anySolCount + 1
      bestSolCount := if solCount > st.bestSolCount then solCount else st.bestSolCount
      singleSolCount := if solCount = 1 then st.singleSolCount + 1 else st.singleSolCount
      out := st.out ++ built.2
        ++ [String.mk puzDefStr ++ " has " ++ toString solCount ++ " solutions"] }
  else
    { st with count := count, out := st.out ++ built.2 }

/-- `Info`: the loop over the keys of the set in ascending order, with the lines printed
before and after it; `processingTime` is the text printed for the elapsed time. -/
def Info (init : Sujiko) (processingTime : String) (allPossiblePuzzles : List Nat) :
    InfoState :=
  let start : InfoState :=
    { count := 0, bestSolCount := 0, singleSolCount := 0, anySolCount := 0
      out := ["Number of ways to layout a puzzle = " ++ toString allPossiblePuzzles.length,
              "Solving all possible puzzles..."] }
  let st := allPossiblePuzzles.foldl (infoStep init) start
  { st with
    out := st.out ++
      ["Processing Time = " ++ processingTime ++ " seconds",
       "Number of potential puzzles = " ++ toString st.count,
       "Most solutions to a single puzzle = " ++ toString st.bestSolCount,
       "Number of single solution puzzles = " ++ toString st.singleSolCount,
       "Number of solvable puzzles = " ++ toString st.anySolCount] }

/-- The program `main` on the argument vector `argv` (with `argv[0]` the program name): the
lines printed.  The global set is empty when the program starts. -/
def main (init : Sujiko) (processingTime : String) (argv : List (List Char)) : List String :=
  let option : List Char := if argv.length > 1 then argv.getD 1 [] else []
  ["Sujiko Explorer - Adrian Dale 2014"] ++
    if option = ['-', 's'] ∧ argv.length > 2 then
      (mainSolve init (argv.getD 2 [])).1
    else if option = ['-', 'i'] then
      ["General Info:"] ++ (Info init processingTime (GenerateAllPossiblePuzzles [])).out
    else if option = [] ∨ option = ['-', 'h'] ∨ option = ['-', '?'] then
      ["Options:", "-s 123456789/aa,bb,cc,dd", "   to solve a puzzle, where puzzle format is:",
       "   1  2  3", "    aa bb", "   4  5  6", "    cc dd",
       "   7  8  9   (Specify 0 for blank cells)"]
    else []

/-- Number of solutions of the clue-free puzzle whose sums are the four bytes of the key. -/
def keySolCount (k : Nat) : Int :=
  (blankPuzzle ((decodeKey k).1 : Int) ((decodeKey k).2.1 : Int) ((decodeKey k).2.2.1 : Int)
    ((decodeKey k).2.2.2 : Int)).countSolutions

/-! ## The loop enumerates the permutations in lexicographic order -/

theorem candidatesFrom_true (g g2 : List Int) (h : next_permutation g = (true, g2)) :
    candidatesFrom g = g :: candidatesFrom g2 := by
  rw [candidatesFrom]
  split
  · rename_i g3 h3
    rw [h] at h3
    cases h3
    rfl
  · rename_i g3 h3
    rw [h] at h3
    cases h3

theorem candidatesFrom_false (g g2 : List Int) (h : next_permutation g = (false, g2)) :
    candidatesFrom g = [g] := by
  rw [candidatesFrom]
  split
  · rename_i g3 h3
    rw [h] at h3
    cases h3
  · rfl

theorem searchLoop_true (puz : Sujiko) (guess : Solution) (results : List Solution)
    (g2 : List Int) (h : next_permutation guess.mValues = (true, g2)) :
    puz.searchLoop guess results =
      puz.searchLoop { mValues := g2 }
        (if puz.isValidSolution guess.mValues then results ++ [guess] else results) := by
  rw [Sujiko.searchLoop]
  split
  · rename_i g3 h3
    rw [h] at h3
    cases h3
    rfl
  · rename_i g3 h3
    rw [h] at h3
    cases h3

theorem searchLoop_false (puz : Sujiko) (guess : Solution) (results : List Solution)
    (g2 : List Int) (h : next_permutation guess.mValues = (false, g2)) :
    puz.searchLoop guess results =
      (if puz.isValidSolution guess.mValues then results ++ [guess] else results) := by
  rw [Sujiko.searchLoop]
  split
  · rename_i g3 h3
    rw [h] at h3
    cases h3
  · rfl

theorem searchLoop_eq (puz : Sujiko) (guess : Solution) (results : List Solution) :
    puz.searchLoop guess results =
      results ++ ((candidatesFrom guess.mValues).filter puz.isValidSolution).map Solution.mk := by
  obtain ⟨g⟩ := guess
  generalize hn : stepsLeft g = n
  induction n using Nat.strong_induction_on generalizing g results with
  | _ n ih =>
    rcases hnp : next_permutation g with ⟨b, g2⟩
    cases b
    · rw [searchLoop_false puz _ _ g2 hnp, candidatesFrom_false g g2 hnp]
      by_cases hv : puz.isValidSolution g = true
      · simp [hv, List.filter_cons]
      · simp [hv, List.filter_cons]
    · rw [searchLoop_true puz _ _ g2 hnp, candidatesFrom_true g g2 hnp,
        ih _ (hn ▸ stepsLeft_lt _ _ hnp) _ _ rfl]
      by_cases hv : puz.isValidSolution g = true
      · simp [hv, List.filter_cons]
      · simp [hv, List.filter_cons]

theorem candidatesFrom_spec (g : List Int) :
    (∀ p ∈ candidatesFrom g, p.Perm g ∧ (p = g ∨ LexLt g p)) ∧
    (∀ p : List Int, p.Perm g → (p = g ∨ LexLt g p) → p ∈ candidatesFrom g) ∧
    (candidatesFrom g).Pairwise LexLt := by
  generalize hn : stepsLeft g = n
  induction n using Nat.strong_induction_on generalizing g with
  | _ n ih =>
    rcases hnext : next_permutation g with ⟨b, g2⟩
    cases b
    swap
    · rw [candidatesFrom_true g g2 hnext]
      obtain ⟨hperm, hlt, hsucc⟩ := (next_permutation_spec g).1 g2 hnext
      obtain ⟨h1, h2, h3⟩ := ih _ (hn ▸ stepsLeft_lt _ _ hnext) g2 rfl
      refine ⟨?_, ?_, ?_⟩
      · intro p hp
        rcases List.mem_cons.1 hp with rfl | hp
        · exact ⟨List.Perm.refl _, Or.inl rfl⟩
        · obtain ⟨hpp, hpl⟩ := h1 p hp
          refine ⟨hpp.trans hperm, Or.inr ?_⟩
          rcases hpl with rfl | hpl
          · exact hlt
          · exact lexLt_trans hlt hpl
      · intro p hp hge
        rcases hge with rfl | hgt
        · exact List.mem_cons_self _ _
        · exact List.mem_cons_of_mem _ (h2 p (hp.trans hperm.symm) (hsucc p hp hgt))
      · refine List.pairwise_cons.2 ⟨?_, h3⟩
        intro p hp
        rcases (h1 p hp).2 with rfl | hpl
        · exact hlt
        · exact lexLt_trans hlt hpl
    · rw [candidatesFrom_false g g2 hnext]
      obtain ⟨_, hmax, _⟩ := (next_permutation_spec g).2 g2 hnext
      refine ⟨?_, ?_, List.pairwise_singleton _ _⟩
      · intro p hp
        rw [List.mem_singleton.1 hp]
        exact ⟨List.Perm.refl _, Or.inl rfl⟩
      · intro p hp hge
        rcases hge with rfl | hgt
        · exact List.mem_singleton_self _
        · exact absurd hgt (hmax p hp)

/-! ## Characterisation of the solver -/

theorem isSumCheckOK_iff (puz : Sujiko) (solution : List Int) :
    puz.isSumCheckOK solution = true ↔ SumsMatch puz solution := by
  unfold Sujiko.isSumCheckOK SumsMatch
  by_cases h0 : cell solution 0 + cell solution 1 + cell solution 3 + cell solution 4
      = puz.mCentres 0
  · by_cases h1 : cell solution 1 + cell solution 2 + cell solution 4 + cell solution 5
        = puz.mCentres 1
    · by_cases h2 : cell solution 3 + cell solution 4 + cell solution 6 + cell solution 7
          = puz.mCentres 2
      · by_cases h3 : cell solution 4 + cell solution 5 + cell solution 7 + cell solution 8
            = puz.mCentres 3
        · simp [h0, h1, h2, h3]
        · simp [h0, h1, h2, h3]
      · simp [h0, h1, h2]
    · simp [h0, h1]
  · simp [h0]

theorem cluesAgree_iff (puz : Sujiko) (solution : List Int) (l : List (Fin 9)) :
    puz.cluesAgree solution l = true ↔
      ∀ i ∈ l, puz.mClues i ≠ 0 → cell solution i.val = puz.mClues i := by
  induction l with
  | nil => simp [Sujiko.cluesAgree]
  | cons j l ih =>
    unfold Sujiko.cluesAgree
    by_cases hj : puz.mClues j ≠ 0 ∧ puz.mClues j ≠ cell solution j.val
    · rw [if_pos hj]
      constructor
      · intro h; cases h
      · intro h
        exact absurd (h j (List.mem_cons_self _ _) hj.1).symm hj.2
    · rw [if_neg hj, ih]
      constructor
      · intro h i hi hne
        rcases List.mem_cons.1 hi with rfl | hi
        · by_contra hc
          exact hj ⟨hne, fun e => hc e.symm⟩
        · exact h i hi hne
      · intro h i hi
        exact h i (List.mem_cons_of_mem _ hi)

theorem isValidSolution_iff (puz : Sujiko) (solution : List Int) :
    puz.isValidSolution solution = true ↔ CluesMatch puz solution ∧ SumsMatch puz solution := by
  unfold Sujiko.isValidSolution CluesMatch
  by_cases hc : puz.cluesAgree solution (List.finRange 9) = true
  · rw [if_pos hc, isSumCheckOK_iff]
    have := (cluesAgree_iff puz solution _).1 hc
    exact ⟨fun h => ⟨fun i => this i (List.mem_finRange i), h⟩, fun h => h.2⟩
  · rw [if_neg hc]
    constructor
    · intro h; cases h
    · intro h
      exact absurd ((cluesAgree_iff puz solution _).2 (fun i _ => h.1 i)) hc

theorem allSolutions_eq (puz : Sujiko) (results : List Solution) :
    puz.allSolutions results =
      ((candidatesFrom start_guess).filter puz.isValidSolution).map Solution.mk := by
  unfold Sujiko.allSolutions
  simp only [List.take_zero]
  rw [searchLoop_eq, List.nil_append]

theorem start_guess_sorted : start_guess.Sorted (· ≤ ·) := by
  unfold start_guess
  simp [List.Sorted]

theorem mem_candidates_iff (p : List Int) :
    p ∈ candidatesFrom start_guess ↔ p.Perm start_guess := by
  obtain ⟨h1, h2, _⟩ := candidatesFrom_spec start_guess
  exact ⟨fun h => (h1 p h).1, fun h => h2 p h (sorted_least _ start_guess_sorted p h)⟩

theorem candidates_pairwise : (candidatesFrom start_guess).Pairwise LexLt :=
  (candidatesFrom_spec start_guess).2.2

theorem mem_allSolutions_iff (puz : Sujiko) (results : List Solution) (r : Solution) :
    r ∈ puz.allSolutions results ↔
      r.mValues.Perm start_guess ∧ CluesMatch puz r.mValues ∧ SumsMatch puz r.mValues := by
  rw [allSolutions_eq, List.mem_map]
  constructor
  · rintro ⟨p, hp, rfl⟩
    rw [List.mem_filter, mem_candidates_iff, isValidSolution_iff] at hp
    exact hp
  · intro h
    refine ⟨r.mValues, ?_, rfl⟩
    rw [List.mem_filter, mem_candidates_iff, isValidSolution_iff]
    exact h

theorem allSolutions_pairwise (puz : Sujiko) (results : List Solution) :
    (puz.allSolutions results).Pairwise (fun r1 r2 => LexLt r1.mValues r2.mValues) := by
  rw [allSolutions_eq, List.pairwise_map]
  exact candidates_pairwise.sublist (List.filter_sublist _)

theorem allSolutions_nodup (puz : Sujiko) (results : List Solution) :
    (puz.allSolutions results).Nodup := by
  refine (allSolutions_pairwise puz results).imp ?_
  intro a b hab heq
  rw [heq] at hab
  exact lexLt_irrefl _ hab

theorem blank_cluesMatch (a b c d : Int) (p : List Int) : CluesMatch (blankPuzzle a b c d) p :=
  fun _ h => absurd rfl h

/-- Every rearrangement of `1..9` is a list of nine pairwise different digits. -/
theorem perm_start_guess_elim (p : List Int) (hp : p.Perm start_guess) :
    (∃ a b c d e f g h i : Int, p = [a, b, c, d, e, f, g, h, i]) ∧
      (∀ x ∈ p, 1 ≤ x ∧ x ≤ 9) ∧ p.Nodup := by
  refine ⟨?_, ?_, ?_⟩
  · have hlen : p.length = 9 := hp.length_eq
    match p, hlen with
    | [a, b, c, d, e, f, g, h, i], _ => exact ⟨a, b, c, d, e, f, g, h, i, rfl⟩
  · intro x hx
    have hx2 : x ∈ start_guess := hp.subset hx
    simp only [start_guess, List.mem_cons, List.mem_nil_iff, or_false] at hx2
    omega
  · exact hp.nodup_iff.2 (by simp [start_guess])

theorem mem_fastSolve (puz : Sujiko) (p : List Int) (hp : p.Perm start_guess)
    (hs : SumsMatch puz p) :
    p ∈ fastSolve (puz.mCentres 0) (puz.mCentres 1) (puz.mCentres 2) (puz.mCentres 3) := by
  obtain ⟨⟨a, b, c, d, e, f, g, h, i, rfl⟩, hr, hnd⟩ := perm_start_guess_elim p hp
  have hmem : ∀ x ∈ [a, b, c, d, e, f, g, h, i], x ∈ start_guess := fun x hx => hp.subset hx
  obtain ⟨h0, h1, h2, h3⟩ := hs
  simp only [cell, List.getD_cons_zero, List.getD_cons_succ] at h0 h1 h2 h3
  have hd : puz.mCentres 0 - a - b - e = d := by omega
  have hf : puz.mCentres 1 - b - c - e = f := by omega
  have hh : puz.mCentres 2 - d - e - g = h := by omega
  have hi : puz.mCentres 3 - e - f - h = i := by omega
  have hrd := hr d (by simp)
  have hrf := hr f (by simp)
  have hrh := hr h (by simp)
  have hsum : a + b + c + d + e + f + g + h + i = 45 := by
    have := hp.sum_eq
    simpa [start_guess, add_assoc] using this
  simp only [List.nodup_cons, List.mem_cons, List.mem_singleton, not_or, List.not_mem_nil,
    not_false_eq_true, List.nodup_nil, and_true] at hnd
  obtain ⟨⟨hab, hac, had, hae, haf, hag, hah, hai⟩, ⟨hbc, hbd, hbe, hbf, hbg, hbh, hbi⟩,
    ⟨hcd, hce, hcf, hcg, hch, hci⟩, ⟨hde, hdf, hdg, hdh, hdi⟩, ⟨hef, heg, heh, hei⟩,
    ⟨hfg, hfh, hfi⟩, ⟨hgh, hgi⟩, hhi⟩ := hnd
  have hI : [a, b, c, d, e, f, g, h, i] ∈ fastSolveI a b c d e f g h i := by
    unfold fastSolveI
    rw [if_pos (by omega)]
    exact List.mem_singleton_self _
  have hG : [a, b, c, d, e, f, g, h, i] ∈
      fastSolveG (puz.mCentres 2) (puz.mCentres 3) a b c d e f g := by
    unfold fastSolveG
    rw [hh, hi]
    have hcond : ¬ (g = e ∨ g = a ∨ g = b ∨ g = c ∨ g = d ∨ g = f ∨ ¬ (1 ≤ h ∧ h ≤ 9)
        ∨ h = e ∨ h = a ∨ h = b ∨ h = c ∨ h = d ∨ h = f ∨ h = g) := by
      rintro (h | h | h | h | h | h | h | h | h | h | h | h | h | h)
      · exact heg h.symm
      · exact hag h.symm
      · exact hbg h.symm
      · exact hcg h.symm
      · exact hdg h.symm
      · exact hfg h.symm
      · exact h hrh
      · exact heh h.symm
      · exact hah h.symm
      · exact hbh h.symm
      · exact hch h.symm
      · exact hdh h.symm
      · exact hfh h.symm
      · exact hgh h.symm
    rw [if_neg hcond]
    exact hI
  have hC : [a, b, c, d, e, f, g, h, i] ∈
      fastSolveC (puz.mCentres 1) (puz.mCentres 2) (puz.mCentres 3) a b d e c := by
    unfold fastSolveC
    rw [hf]
    have hcond : ¬ (c = e ∨ c = a ∨ c = b ∨ c = d ∨ ¬ (1 ≤ f ∧ f ≤ 9)
        ∨ f = e ∨ f = a ∨ f = b ∨ f = d ∨ f = c) := by
      rintro (h | h | h | h | h | h | h | h | h | h)
      · exact hce h
      · exact hac h.symm
      · exact hbc h.symm
      · exact hcd h
      · exact h hrf
      · exact hef h.symm
      · exact haf h.symm
      · exact hbf h.symm
      · exact hdf h.symm
      · exact hcf h.symm
    rw [if_neg hcond]
    exact List.mem_flatMap.2 ⟨g, hmem g (by simp), hG⟩
  have hB : [a, b, c, d, e, f, g, h, i] ∈
      fastSolveB (puz.mCentres 0) (puz.mCentres 1) (puz.mCentres 2) (puz.mCentres 3) e a b := by
    unfold fastSolveB
    rw [hd]
    have hcond : ¬ (a = e ∨ b = e ∨ b = a ∨ ¬ (1 ≤ d ∧ d ≤ 9) ∨ d = e ∨ d = a ∨ d = b) := by
      rintro (h | h | h | h | h | h | h)
      · exact hae h
      · exact hbe h
      · exact hab h.symm
      · exact h hrd
      · exact hde h
      · exact had h.symm
      · exact hbd h.symm
    rw [if_neg hcond]
    exact List.mem_flatMap.2 ⟨c, hmem c (by simp), hC⟩
  unfold fastSolve
  exact List.mem_flatMap.2 ⟨e, hmem e (by simp),
    List.mem_flatMap.2 ⟨a, hmem a (by simp), List.mem_flatMap.2 ⟨b, hmem b (by simp), hB⟩⟩⟩

/-- A strictly increasing list with the right members is the result of `allSolutions`. -/
theorem allSolutions_eq_list (puz : Sujiko) (results : List Solution) (L : List (List Int))
    (hsorted : L.Pairwise LexLt)
    (hsound : ∀ p ∈ L, p.Perm start_guess ∧ CluesMatch puz p ∧ SumsMatch puz p)
    (hcomplete : ∀ p : List Int, p.Perm start_guess → CluesMatch puz p → SumsMatch puz p →
      p ∈ L) :
    puz.allSolutions results = L.map Solution.mk := by
  rw [allSolutions_eq]
  congr 1
  have hs1 : ((candidatesFrom start_guess).filter puz.isValidSolution).Pairwise LexLt :=
    candidates_pairwise.sublist (List.filter_sublist _)
  have hnd : ∀ l : List (List Int), l.Pairwise LexLt → l.Nodup := by
    intro l hl
    refine hl.imp ?_
    intro a b hab heq
    rw [heq] at hab
    exact lexLt_irrefl _ hab
  have hperm : ((candidatesFrom start_guess).filter puz.isValidSolution).Perm L := by
    rw [List.perm_ext_iff_of_nodup (hnd _ hs1) (hnd _ hsorted)]
    intro p
    rw [List.mem_filter, mem_candidates_iff, isValidSolution_iff]
    exact ⟨fun h => hcomplete p h.1 h.2.1 h.2.2, fun h => hsound p h⟩
  exact List.eq_of_perm_of_sorted hperm hs1 hsorted

/-- Evaluation of a clue-free puzzle through the pruned search. -/
theorem blank_allSolutions_eq (a b c d : Int) (results : List Solution) (L : List (List Int))
    (hsorted : L.Pairwise LexLt)
    (hsound : ∀ p ∈ L, p.Perm start_guess ∧ SumsMatch (blankPuzzle a b c d) p)
    (hfast : ∀ p ∈ fastSolve a b c d, p ∈ L) :
    (blankPuzzle a b c d).allSolutions results = L.map Solution.mk := by
  apply allSolutions_eq_list _ _ _ hsorted
  · intro p hp
    exact ⟨(hsound p hp).1, blank_cluesMatch _ _ _ _ _, (hsound p hp).2⟩
  · intro p hp _ hs
    have h := mem_fastSolve (blankPuzzle a b c d) p hp hs
    have e0 : (blankPuzzle a b c d).mCentres 0 = a := rfl
    have e1 : (blankPuzzle a b c d).mCentres 1 = b := rfl
    have e2 : (blankPuzzle a b c d).mCentres 2 = c := rfl
    have e3 : (blankPuzzle a b c d).mCentres 3 = d := rfl
    rw [e0, e1, e2, e3] at h
    exact hfast p h

theorem blank_22_15_17_21 (results : List Solution) :
    (blankPuzzle 22 15 17 21).allSolutions results =
      [⟨[7, 4, 3, 9, 2, 6, 1, 5, 8]⟩, ⟨[9, 2, 4, 8, 3, 6, 1, 5, 7]⟩,
       ⟨[9, 3, 1, 6, 4, 7, 5, 2, 8]⟩, ⟨[9, 4, 1, 7, 2, 8, 3, 5, 6]⟩,
       ⟨[9, 7, 1, 2, 4, 3, 5, 6, 8]⟩, ⟨[9, 7, 1, 4, 2, 5, 3, 8, 6]⟩] :=
  blank_allSolutions_eq 22 15 17 21 results
    [[7, 4, 3, 9, 2, 6, 1, 5, 8], [9, 2, 4, 8, 3, 6, 1, 5, 7], [9, 3, 1, 6, 4, 7, 5, 2, 8],
     [9, 4, 1, 7, 2, 8, 3, 5, 6], [9, 7, 1, 2, 4, 3, 5, 6, 8], [9, 7, 1, 4, 2, 5, 3, 8, 6]]
    (by decide!) (by decide!) (by decide!)

theorem blank_10_14_19_22 (results : List Solution) :
    (blankPuzzle 10 14 19 22).allSolutions results = [⟨[4, 2, 6, 3, 1, 5, 8, 7, 9]⟩] :=
  blank_allSolutions_eq 10 14 19 22 results [[4, 2, 6, 3, 1, 5, 8, 7, 9]]
    (by decide!) (by decide!) (by decide!)

theorem blank_14_10_19_22 (results : List Solution) :
    (blankPuzzle 14 10 19 22).allSolutions results = [] :=
  blank_allSolutions_eq 14 10 19 22 results [] (by decide!) (by decide!) (by decide!)

theorem blank_10_10_10_10 (results : List Solution) :
    (blankPuzzle 10 10 10 10).allSolutions results = [] :=
  blank_allSolutions_eq 10 10 10 10 results [] (by decide!) (by decide!) (by decide!)

/-! ## Soundness, completeness and order of `allSolutions` -/

/-- C1. Soundness of `Sujiko::allSolutions`: every element of the returned result is a
permutation of 1..9, carries every non-blank clue at its position, and has the four
sub-square sums equal to the four circled numbers. -/
theorem allSolutions_sound (puz : Sujiko) (results : List Solution) (r : Solution)
    (hr : r ∈ puz.allSolutions results) :
    r.mValues.Perm [1, 2, 3, 4, 5, 6, 7, 8, 9] ∧
    (∀ i : Fin 9, puz.mClues i ≠ 0 → cell r.mValues i.val = puz.mClues i) ∧
    cell r.mValues 0 + cell r.mValues 1 + cell r.mValues 3 + cell r.mValues 4 = puz.mCentres 0 ∧
    cell r.mValues 1 + cell r.mValues 2 + cell r.mValues 4 + cell r.mValues 5 = puz.mCentres 1 ∧
    cell r.mValues 3 + cell r.mValues 4 + cell r.mValues 6 + cell r.mValues 7 = puz.mCentres 2 ∧
    cell r.mValues 4 + cell r.mValues 5 + cell r.mValues 7 + cell r.mValues 8 = puz.mCentres 3 :=
  (mem_allSolutions_iff puz results r).1 hr

/-- The grid 4,2,6,3,1,5,8,7,9 is returned for the blank puzzle with sums (10,14,19,22),
and is therefore a permutation of 1..9. -/
theorem allSolutions_sound_witness :
    (⟨[4, 2, 6, 3, 1, 5, 8, 7, 9]⟩ : Solution) ∈ (blankPuzzle 10 14 19 22).allSolutions [] ∧
    ([4, 2, 6, 3, 1, 5, 8, 7, 9] : List Int).Perm [1, 2, 3, 4, 5, 6, 7, 8, 9] :=
  have hmem : (⟨[4, 2, 6, 3, 1, 5, 8, 7, 9]⟩ : Solution) ∈
      (blankPuzzle 10 14 19 22).allSolutions [] :=
    (mem_allSolutions_iff _ _ _).2
      ⟨by decide, blank_cluesMatch _ _ _ _ _, by decide, by decide, by decide, by decide⟩
  ⟨hmem, (allSolutions_sound _ _ _ hmem).1⟩

/-- C2. Completeness of `Sujiko::allSolutions`: a grid is in the returned result exactly
when it is a permutation of 1..9 that agrees with every non-blank clue and whose four
sub-square sums equal the circled numbers in order; so no such permutation is omitted and
the result, as a set, is the set of all of them. -/
theorem allSolutions_complete (puz : Sujiko) (results : List Solution) (p : List Int) :
    (⟨p⟩ : Solution) ∈ puz.allSolutions results ↔
      (p.Perm [1, 2, 3, 4, 5, 6, 7, 8, 9] ∧
       (∀ i : Fin 9, puz.mClues i ≠ 0 → cell p i.val = puz.mClues i) ∧
       cell p 0 + cell p 1 + cell p 3 + cell p 4 = puz.mCentres 0 ∧
       cell p 1 + cell p 2 + cell p 4 + cell p 5 = puz.mCentres 1 ∧
       cell p 3 + cell p 4 + cell p 6 + cell p 7 = puz.mCentres 2 ∧
       cell p 4 + cell p 5 + cell p 7 + cell p 8 = puz.mCentres 3) :=
  mem_allSolutions_iff puz results ⟨p⟩

/-- C5. Result order of `Sujiko::allSolutions`: the returned sequence is strictly increasing
in lexicographic order, hence free of duplicates, and it is the strictly increasing
enumeration of all permutations of 1..9 filtered by `isValidSolution`. -/
theorem allSolutions_lex_increasing (puz : Sujiko) (results : List Solution) :
    (puz.allSolutions results).Pairwise
        (fun r1 r2 => List.Lex (· < ·) r1.mValues r2.mValues) ∧
    (puz.allSolutions results).Nodup ∧
    ∃ perms : List (List Int),
      perms.Pairwise (List.Lex (· < ·)) ∧
      (∀ p : List Int, p ∈ perms ↔ p.Perm [1, 2, 3, 4, 5, 6, 7, 8, 9]) ∧
      puz.allSolutions results = (perms.filter puz.isValidSolution).map Solution.mk :=
  ⟨allSolutions_pairwise puz results, allSolutions_nodup puz results,
    candidatesFrom start_guess, candidates_pairwise, mem_candidates_iff,
    allSolutions_eq puz results⟩

/-! ## Concrete puzzles -/

/-- C6 (as the code has it). With all nine clues blank and sums (22,15,17,21),
`allSolutions` returns exactly six solutions, in this order; the grid 4,8,6,9,5,1,2,3,7 is
not one of them. -/
theorem blank_22_15_17_21_solutions (results : List Solution) :
    (blankPuzzle 22 15 17 21).allSolutions results =
      [⟨[7, 4, 3, 9, 2, 6, 1, 5, 8]⟩, ⟨[9, 2, 4, 8, 3, 6, 1, 5, 7]⟩,
       ⟨[9, 3, 1, 6, 4, 7, 5, 2, 8]⟩, ⟨[9, 4, 1, 7, 2, 8, 3, 5, 6]⟩,
       ⟨[9, 7, 1, 2, 4, 3, 5, 6, 8]⟩, ⟨[9, 7, 1, 4, 2, 5, 3, 8, 6]⟩] ∧
    ((blankPuzzle 22 15 17 21).allSolutions results).length = 6 ∧
    (⟨[4, 8, 6, 9, 5, 1, 2, 3, 7]⟩ : Solution) ∉ (blankPuzzle 22 15 17 21).allSolutions results := by
  rw [blank_22_15_17_21]
  exact ⟨rfl, rfl, by decide⟩

/-- C6 fails as stated: for blank clues and sums (22,15,17,21) the result of `allSolutions`
is not the single grid 4,8,6,9,5,1,2,3,7; it has six elements and that grid, whose first
sub-square sums to 26, is not among them. -/
theorem blank_22_15_17_21_not_single :
    (blankPuzzle 22 15 17 21).allSolutions [] ≠ [⟨[4, 8, 6, 9, 5, 1, 2, 3, 7]⟩] ∧
    ((blankPuzzle 22 15 17 21).allSolutions []).length ≠ 1 ∧
    (⟨[4, 8, 6, 9, 5, 1, 2, 3, 7]⟩ : Solution) ∉ (blankPuzzle 22 15 17 21).allSolutions [] := by
  rw [blank_22_15_17_21]
  exact ⟨by decide, by decide, by decide⟩

/-- C8. With all nine clues blank and sums (10,10,10,10), `countSolutions` returns 0. -/
theorem countSolutions_10_10_10_10 : (blankPuzzle 10 10 10 10).countSolutions = 0 := by
  unfold Sujiko.countSolutions
  simp only [blank_10_10_10_10]
  rfl

/-! ## Infeasible constraints -/

theorem four_distinct_digits_sum (w x y z : Int) (hw : 1 ≤ w ∧ w ≤ 9) (hx : 1 ≤ x ∧ x ≤ 9)
    (hy : 1 ≤ y ∧ y ≤ 9) (hz : 1 ≤ z ∧ z ≤ 9) (hwx : w ≠ x) (hwy : w ≠ y) (hwz : w ≠ z)
    (hxy : x ≠ y) (hxz : x ≠ z) (hyz : y ≠ z) :
    10 ≤ w + x + y + z ∧ w + x + y + z ≤ 30 := by
  omega

/-- The sums of a solved puzzle all lie between 10 and 30. -/
theorem sums_in_range (puz : Sujiko) (p : List Int) (hp : p.Perm start_guess)
    (hs : SumsMatch puz p) (k : Fin 4) : 10 ≤ puz.mCentres k ∧ puz.mCentres k ≤ 30 := by
  obtain ⟨⟨a, b, c, d, e, f, g, h, i, rfl⟩, hr, hnd⟩ := perm_start_guess_elim p hp
  obtain ⟨h0, h1, h2, h3⟩ := hs
  simp only [cell, List.getD_cons_zero, List.getD_cons_succ] at h0 h1 h2 h3
  simp only [List.nodup_cons, List.mem_cons, List.mem_singleton, not_or, List.not_mem_nil,
    not_false_eq_true, List.nodup_nil, and_true] at hnd
  obtain ⟨⟨hab, hac, had, hae, haf, hag, hah, hai⟩, ⟨hbc, hbd, hbe, hbf, hbg, hbh, hbi⟩,
    ⟨hcd, hce, hcf, hcg, hch, hci⟩, ⟨hde, hdf, hdg, hdh, hdi⟩, ⟨hef, heg, heh, hei⟩,
    ⟨hfg, hfh, hfi⟩, ⟨hgh, hgi⟩, hhi⟩ := hnd
  have ha := hr a (by simp)
  have hb := hr b (by simp)
  have hc := hr c (by simp)
  have hd := hr d (by simp)
  have he := hr e (by simp)
  have hf := hr f (by simp)
  have hg := hr g (by simp)
  have hh := hr h (by simp)
  have hi := hr i (by simp)
  fin_cases k
  · have := four_distinct_digits_sum a b d e ha hb hd he hab had hae hbd hbe hde
    rw [h0] at this
    exact this
  · have := four_distinct_digits_sum b c e f hb hc he hf hbc hbe hbf hce hcf hef
    rw [h1] at this
    exact this
  · have := four_distinct_digits_sum d e g h hd he hg hh hde hdg hdh heg heh hgh
    rw [h2] at this
    exact this
  · have := four_distinct_digits_sum e f h i he hf hh hi hef heh hei hfh hfi hhi
    rw [h3] at this
    exact this

theorem countSolutions_of_nil (puz : Sujiko) (h : puz.allSolutions [] = []) :
    puz.countSolutions = 0 := by
  unfold Sujiko.countSolutions
  simp only [h]
  rfl

/-- C9. Infeasible sums yield zero solutions: whenever one of the four sums is below 10 or
above 30, `allSolutions` returns the empty sequence (from any previous content of the result
vector) and `countSolutions` is 0; both are ordinary return values of total functions. -/
theorem allSolutions_infeasible_sum (puz : Sujiko) (results : List Solution) (k : Fin 4)
    (hk : puz.mCentres k < 10 ∨ 30 < puz.mCentres k) :
    puz.allSolutions results = [] ∧ puz.countSolutions = 0 := by
  have hnil : ∀ res : List Solution, puz.allSolutions res = [] := by
    intro res
    apply List.eq_nil_iff_forall_not_mem.2
    intro r hr
    obtain ⟨hp, _, hs⟩ := (mem_allSolutions_iff puz res r).1 hr
    have := sums_in_range puz r.mValues hp hs k
    omega
  exact ⟨hnil results, countSolutions_of_nil puz (hnil [])⟩

/-- A first sum of 9 leaves no solution, whatever the result vector held before. -/
theorem allSolutions_infeasible_sum_witness :
    (blankPuzzle 9 10 10 10).allSolutions [⟨[1]⟩] = [] ∧
      (blankPuzzle 9 10 10 10).countSolutions = 0 :=
  allSolutions_infeasible_sum (blankPuzzle 9 10 10 10) [⟨[1]⟩] 0 (Or.inl (by decide))

/-- C10. Contradictory clues yield zero solutions: when two different positions carry the
same non-zero clue, `allSolutions` returns the empty sequence and `countSolutions` is 0,
whatever the sums are. -/
theorem allSolutions_contradictory_clues (puz : Sujiko) (results : List Solution)
    (i j : Fin 9) (hij : i ≠ j) (hne : puz.mClues i ≠ 0) (heq : puz.mClues i = puz.mClues j) :
    puz.allSolutions results = [] ∧ puz.countSolutions = 0 := by
  have hnil : ∀ res : List Solution, puz.allSolutions res = [] := by
    intro res
    apply List.eq_nil_iff_forall_not_mem.2
    intro r hr
    obtain ⟨hp, hc, _⟩ := (mem_allSolutions_iff puz res r).1 hr
    have hlen : r.mValues.length = 9 := hp.length_eq
    have hnd : r.mValues.Nodup := (perm_start_guess_elim _ hp).2.2
    have hi : cell r.mValues i.val = puz.mClues i := hc i hne
    have hj : cell r.mValues j.val = puz.mClues j := hc j (heq ▸ hne)
    have hil : i.val < r.mValues.length := by rw [hlen]; exact i.isLt
    have hjl : j.val < r.mValues.length := by rw [hlen]; exact j.isLt
    unfold cell at hi hj
    rw [List.getD_eq_getElem _ _ hil] at hi
    rw [List.getD_eq_getElem _ _ hjl] at hj
    have hsame : r.mValues[i.val] = r.mValues[j.val] := by rw [hi, hj, heq]
    have := (hnd.getElem_inj_iff).1 hsame
    exact hij (Fin.ext this)
  exact ⟨hnil results, countSolutions_of_nil puz (hnil [])⟩

/-- The clue 5 at positions 0 and 1 leaves no solution. -/
theorem allSolutions_contradictory_clues_witness :
    (Sujiko.mk (fun i => if i.val < 2 then 5 else 0)
        (fun k => [22, 15, 17, 21].getD k.val 0)).allSolutions [] = [] ∧
    (Sujiko.mk (fun i => if i.val < 2 then 5 else 0)
        (fun k => [22, 15, 17, 21].getD k.val 0)).countSolutions = 0 :=
  allSolutions_contradictory_clues _ [] 0 1 (by decide) (by decide) (by decide)

/-! ## The catalogue of puzzles up to symmetry -/

theorem puzDefOf_eq (a b c d : Nat) (ha : a < 256) (hb : b < 256) (hc : c < 256)
    (hd : d < 256) : puzDefOf a b c d = a + b * 256 + c * 65536 + d * 16777216 := by
  unfold puzDefOf u32
  simp only [Nat.shiftLeft_eq]
  omega

theorem decodeKey_eq (k : Nat) :
    decodeKey k = (k % 256, k / 256 % 256, k / 65536 % 256, k / 16777216 % 256) := by
  unfold decodeKey
  have h : (0xff : Nat) = 2 ^ 8 - 1 := by norm_num
  simp only [h, Nat.and_pow_two_sub_one_eq_mod, Nat.shiftRight_eq_div_pow]

theorem decodeKey_puzDefOf (a b c d : Nat) (ha : a < 256) (hb : b < 256) (hc : c < 256)
    (hd : d < 256) : decodeKey (puzDefOf a b c d) = (a, b, c, d) := by
  rw [decodeKey_eq, puzDefOf_eq a b c d ha hb hc hd]
  refine Prod.ext ?_ (Prod.ext ?_ (Prod.ext ?_ ?_)) <;> simp only <;> omega

theorem mem_setInsert (k y : Nat) (s : List Nat) : y ∈ setInsert k s ↔ y = k ∨ y ∈ s := by
  induction s with
  | nil => simp [setInsert]
  | cons x xs ih =>
    unfold setInsert
    by_cases h1 : k < x
    · simp [h1]
    · by_cases h2 : k = x
      · subst h2
        simp
      · simp only [h1, h2, if_false, List.mem_cons, ih]
        tauto

theorem length_setInsert (k : Nat) (s : List Nat) (hk : k ∉ s) :
    (setInsert k s).length = s.length + 1 := by
  induction s with
  | nil => simp [setInsert]
  | cons x xs ih =>
    unfold setInsert
    have hx : k ≠ x := fun h => hk (h ▸ List.mem_cons_self _ _)
    have hxs : k ∉ xs := fun h => hk (List.mem_cons_of_mem _ h)
    by_cases h1 : k < x
    · simp [h1]
    · simp [h1, hx, ih hxs]

theorem images_mem_self (t : Nat × Nat × Nat × Nat) : t ∈ images t := by
  obtain ⟨a, b, c, d⟩ := t
  simp [images]

theorem images_symm (t u : Nat × Nat × Nat × Nat) (h : u ∈ images t) : t ∈ images u := by
  obtain ⟨a, b, c, d⟩ := t
  simp only [images, List.mem_cons, List.mem_singleton, List.mem_nil_iff, or_false] at h
  rcases h with rfl | rfl | rfl | rfl | rfl | rfl | rfl | rfl <;> simp [images]

theorem images_trans (t u v : Nat × Nat × Nat × Nat) (h1 : u ∈ images t) (h2 : v ∈ images u) :
    v ∈ images t := by
  obtain ⟨a, b, c, d⟩ := t
  simp only [images, List.mem_cons, List.mem_singleton, List.mem_nil_iff, or_false] at h1
  rcases h1 with rfl | rfl | rfl | rfl | rfl | rfl | rfl | rfl <;>
    (simp only [images, List.mem_cons, List.mem_singleton, List.mem_nil_iff, or_false] at h2
     rcases h2 with rfl | rfl | rfl | rfl | rfl | rfl | rfl | rfl <;> simp [images])

theorem images_inDomain (t u : Nat × Nat × Nat × Nat) (h : u ∈ images t) (ht : InDomain t) :
    InDomain u := by
  obtain ⟨a, b, c, d⟩ := t
  simp only [InDomain] at ht
  simp only [images, List.mem_cons, List.mem_singleton, List.mem_nil_iff, or_false] at h
  rcases h with rfl | rfl | rfl | rfl | rfl | rfl | rfl | rfl <;> simp only [InDomain] <;> omega

theorem code_injective (t u : Nat × Nat × Nat × Nat) (ht : InDomain t) (hu : InDomain u)
    (h : code t = code u) : t = u := by
  obtain ⟨a, b, c, d⟩ := t
  obtain ⟨a2, b2, c2, d2⟩ := u
  simp only [InDomain] at ht hu
  simp only [code] at h
  refine Prod.ext ?_ (Prod.ext ?_ (Prod.ext ?_ ?_)) <;> simp only <;> omega

theorem exists_min_code (l : List (Nat × Nat × Nat × Nat)) (hl : l ≠ []) :
    ∃ m ∈ l, ∀ u ∈ l, code m ≤ code u := by
  induction l with
  | nil => exact absurd rfl hl
  | cons x xs ih =>
    by_cases hxs : xs = []
    · subst hxs
      exact ⟨x, List.mem_cons_self _ _, fun u hu => by
        rw [List.mem_singleton.1 hu]⟩
    · obtain ⟨m, hm, hmin⟩ := ih hxs
      by_cases hxm : code x ≤ code m
      · refine ⟨x, List.mem_cons_self _ _, ?_⟩
        intro u hu
        rcases List.mem_cons.1 hu with rfl | hu
        · exact le_refl _
        · exact le_trans hxm (hmin u hu)
      · refine ⟨m, List.mem_cons_of_mem _ hm, ?_⟩
        intro u hu
        rcases List.mem_cons.1 hu with rfl | hu
        · omega
        · exact hmin u hu

/-- Every quadruple has a canonical image. -/
theorem exists_canonical_image (t : Nat × Nat × Nat × Nat) :
    ∃ m ∈ images t, IsCanonical m ∧ code m ≤ code t := by
  have hne : images t ≠ [] := List.ne_nil_of_mem (images_mem_self t)
  obtain ⟨m, hm, hmin⟩ := exists_min_code (images t) hne
  refine ⟨m, hm, ?_, hmin t (images_mem_self t)⟩
  intro u hu
  exact hmin u (images_trans t m u hm hu)

theorem mem_allTuples (t : Nat × Nat × Nat × Nat) : t ∈ allTuples ↔ InDomain t := by
  obtain ⟨a, b, c, d⟩ := t
  simp only [allTuples, sumRange, List.mem_flatMap, List.mem_map, List.mem_range'_1, InDomain,
    Prod.mk.injEq]
  constructor
  · rintro ⟨a2, ha, b2, hb, c2, hc, d2, hd, rfl, rfl, rfl, rfl⟩
    omega
  · intro h
    exact ⟨a, by omega, b, by omega, c, by omega, d, by omega, rfl, rfl, rfl, rfl⟩

theorem allTuples_pairwise : allTuples.Pairwise (fun t u => code t < code u) := by
  have hr : ∀ x ∈ sumRange, 10 ≤ x ∧ x ≤ 30 := by
    intro x hx
    simp only [sumRange, List.mem_range'_1] at hx
    omega
  have hlt : sumRange.Pairwise (· < ·) := List.pairwise_lt_range' 10 21
  unfold allTuples
  rw [List.pairwise_flatMap]
  constructor
  · intro a ha
    rw [List.pairwise_flatMap]
    constructor
    · intro b hb
      rw [List.pairwise_flatMap]
      constructor
      · intro c hc
        rw [List.pairwise_map]
        refine hlt.imp ?_
        intro d d2 hdd
        simp only [code]
        omega
      · refine hlt.imp_of_mem ?_
        intro c c2 hc hc2 hcc t ht u hu
        obtain ⟨d, hd, rfl⟩ := List.mem_map.1 ht
        obtain ⟨d2, hd2, rfl⟩ := List.mem_map.1 hu
        have := hr d hd
        have := hr d2 hd2
        simp only [code]
        omega
    · refine hlt.imp_of_mem ?_
      intro b b2 hb hb2 hbb t ht u hu
      obtain ⟨c, hc, ht⟩ := List.mem_flatMap.1 ht
      obtain ⟨d, hd, rfl⟩ := List.mem_map.1 ht
      obtain ⟨c2, hc2, hu⟩ := List.mem_flatMap.1 hu
      obtain ⟨d2, hd2, rfl⟩ := List.mem_map.1 hu
      have := hr c hc
      have := hr c2 hc2
      have := hr d hd
      have := hr d2 hd2
      simp only [code]
      omega
  · refine hlt.imp_of_mem ?_
    intro a a2 ha ha2 haa t ht u hu
    obtain ⟨b, hb, ht⟩ := List.mem_flatMap.1 ht
    obtain ⟨c, hc, ht⟩ := List.mem_flatMap.1 ht
    obtain ⟨d, hd, rfl⟩ := List.mem_map.1 ht
    obtain ⟨b2, hb2, hu⟩ := List.mem_flatMap.1 hu
    obtain ⟨c2, hc2, hu⟩ := List.mem_flatMap.1 hu
    obtain ⟨d2, hd2, rfl⟩ := List.mem_map.1 hu
    have := hr b hb
    have := hr b2 hb2
    have := hr c hc
    have := hr c2 hc2
    have := hr d hd
    have := hr d2 hd2
    simp only [code]
    omega

theorem decodeKey_packTuple (t : Nat × Nat × Nat × Nat) (ht : InDomain t) :
    decodeKey (packTuple t) = t := by
  obtain ⟨a, b, c, d⟩ := t
  simp only [InDomain] at ht
  exact decodeKey_puzDefOf a b c d (by omega) (by omega) (by omega) (by omega)

theorem packTuple_injective (t u : Nat × Nat × Nat × Nat) (ht : InDomain t) (hu : InDomain u)
    (h : packTuple t = packTuple u) : t = u := by
  rw [← decodeKey_packTuple t ht, ← decodeKey_packTuple u hu, h]

theorem setInsert_perm (k : Nat) (s : List Nat) (hk : k ∉ s) :
    (setInsert k s).Perm (k :: s) := by
  induction s with
  | nil => exact List.Perm.refl _
  | cons x xs ih =>
    unfold setInsert
    have hx : k ≠ x := fun h => hk (h ▸ List.mem_cons_self _ _)
    have hxs : k ∉ xs := fun h => hk (List.mem_cons_of_mem _ h)
    by_cases h1 : k < x
    · rw [if_pos h1]
    · rw [if_neg h1, if_neg hx]
      exact ((ih hxs).cons x).trans (List.Perm.swap _ _ _)

theorem nodup_setInsert (k : Nat) (s : List Nat) (hk : k ∉ s) (hs : s.Nodup) :
    (setInsert k s).Nodup :=
  (setInsert_perm k s hk).nodup_iff.2 (List.nodup_cons.2 ⟨hk, hs⟩)

theorem foldl_flatMap_eq {α β γ : Type} (f : α → List β) (g : γ → β → γ) (l : List α) (s : γ) :
    (l.flatMap f).foldl g s = l.foldl (fun acc a => (f a).foldl g acc) s := by
  induction l generalizing s with
  | nil => rfl
  | cons a l ih => simp only [List.flatMap_cons, List.foldl_append, List.foldl_cons, ih]

theorem generate_eq_foldl (allPossiblePuzzles : List Nat) :
    GenerateAllPossiblePuzzles allPossiblePuzzles = allTuples.foldl stepTuple [] := by
  unfold GenerateAllPossiblePuzzles allTuples
  simp only [List.take_zero, foldl_flatMap_eq, List.foldl_map]
  rfl

theorem stepTuple_eq (s : List Nat) (t : Nat × Nat × Nat × Nat) :
    stepTuple s t = if (∃ u ∈ images t, packTuple u ∈ s) then s else setInsert (packTuple t) s := by
  obtain ⟨a, b, c, d⟩ := t
  unfold stepTuple generateStep isTransformationKnown
  simp only [images, packTuple, List.mem_cons, List.mem_singleton, List.mem_nil_iff, or_false,
    exists_eq_or_imp, exists_eq_left, Bool.and_eq_true, beq_iff_eq, decide_eq_false_iff_not]
  by_cases h : (puzDefOf a b c d ∈ s ∨ puzDefOf b a d c ∈ s ∨ puzDefOf c d a b ∈ s ∨
      puzDefOf a c b d ∈ s ∨ puzDefOf d b c a ∈ s ∨ puzDefOf c a d b ∈ s ∨
      puzDefOf b d a c ∈ s ∨ puzDefOf d c b a ∈ s)
  · rw [if_pos h, if_neg]
    intro hc
    obtain ⟨⟨⟨⟨⟨⟨⟨h1, h2⟩, h3⟩, h4⟩, h5⟩, h6⟩, h7⟩, h8⟩ := hc
    rcases h with h | h | h | h | h | h | h | h
    · exact h1 h
    · exact h2 h
    · exact h3 h
    · exact h4 h
    · exact h5 h
    · exact h6 h
    · exact h7 h
    · exact h8 h
  · rw [if_neg h, if_pos]
    simp only [not_or] at h
    obtain ⟨h1, h2, h3, h4, h5, h6, h7, h8⟩ := h
    exact ⟨⟨⟨⟨⟨⟨⟨h1, h2⟩, h3⟩, h4⟩, h5⟩, h6⟩, h7⟩, h8⟩

theorem genInv_step (P R : List (Nat × Nat × Nat × Nat)) (t : Nat × Nat × Nat × Nat)
    (s : List Nat) (hall : allTuples = P ++ t :: R) (hinv : GenInv P s) :
    GenInv (P ++ [t]) (stepTuple s t) := by
  obtain ⟨hmem, hlen, hnodup⟩ := hinv
  have hpw := allTuples_pairwise
  rw [hall, List.pairwise_append] at hpw
  obtain ⟨_, hpwR, hPR⟩ := hpw
  have hPt : ∀ p ∈ P, code p < code t := fun p hp => hPR p hp t (List.mem_cons_self _ _)
  have htR : ∀ r ∈ R, code t < code r := fun r hr => List.rel_of_pairwise_cons hpwR hr
  have hdom : ∀ p, p ∈ P ++ t :: R → InDomain p := fun p hp =>
    (mem_allTuples p).1 (hall ▸ hp)
  have htD : InDomain t := hdom t (by simp)
  have hbefore : ∀ m, InDomain m → code m < code t → m ∈ P := by
    intro m hm hlt
    have : m ∈ P ++ t :: R := hall ▸ (mem_allTuples m).2 hm
    rcases List.mem_append.1 this with h | h
    · exact h
    · rcases List.mem_cons.1 h with rfl | h
      · omega
      · have := htR m h
        omega
  have hkey : (∃ u ∈ images t, packTuple u ∈ s) ↔ ¬ IsCanonical t := by
    constructor
    · rintro ⟨u, hu, hus⟩ hcan
      obtain ⟨p, hp, _, hpk⟩ := (hmem _).1 hus
      have hpu : u = p :=
        packTuple_injective u p (images_inDomain t u hu htD) (hdom p (by simp [hp])) hpk
      subst hpu
      have h1 := hPt u hp
      have h2 := hcan u hu
      omega
    · intro hcan
      obtain ⟨m, hm, hmcan, hmle⟩ := exists_canonical_image t
      have hmt : m ≠ t := fun h => hcan (h ▸ hmcan)
      have hmD := images_inDomain t m hm htD
      have hlt : code m < code t := by
        rcases Nat.lt_or_ge (code m) (code t) with h | h
        · exact h
        · exact absurd (code_injective m t hmD htD (le_antisymm hmle h)) hmt
      exact ⟨m, hm, (hmem _).2 ⟨m, hbefore m hmD hlt, hmcan, rfl⟩⟩
  rw [stepTuple_eq]
  by_cases hk : (∃ u ∈ images t, packTuple u ∈ s)
  · have hnc : ¬ IsCanonical t := hkey.1 hk
    rw [if_pos hk]
    refine ⟨?_, ?_, hnodup⟩
    · intro k
      rw [hmem k]
      constructor
      · rintro ⟨p, hp, h⟩
        exact ⟨p, List.mem_append_left _ hp, h⟩
      · rintro ⟨p, hp, h⟩
        rcases List.mem_append.1 hp with hp | hp
        · exact ⟨p, hp, h⟩
        · rw [List.mem_singleton.1 hp] at h
          exact absurd h.1 hnc
    · rw [hlen, List.countP_append]
      simp [List.countP_cons, hnc]
  · have hcan : IsCanonical t := by
      by_contra h
      exact hk (hkey.2 h)
    have hts : packTuple t ∉ s := fun h => hk ⟨t, images_mem_self t, h⟩
    rw [if_neg hk]
    refine ⟨?_, ?_, nodup_setInsert _ _ hts hnodup⟩
    · intro k
      rw [mem_setInsert, hmem k]
      constructor
      · rintro (hkt | ⟨p, hp, h⟩)
        · exact ⟨t, List.mem_append_right _ (List.mem_singleton_self t), hcan, hkt⟩
        · exact ⟨p, List.mem_append_left _ hp, h⟩
      · rintro ⟨p, hp, h⟩
        rcases List.mem_append.1 hp with hp | hp
        · exact Or.inr ⟨p, hp, h⟩
        · rw [List.mem_singleton.1 hp] at h
          exact Or.inl h.2
    · rw [length_setInsert _ _ hts, hlen, List.countP_append]
      simp [List.countP_cons, hcan]

theorem genInv_foldl (R P : List (Nat × Nat × Nat × Nat)) (s : List Nat)
    (hall : allTuples = P ++ R) (hinv : GenInv P s) :
    GenInv allTuples (R.foldl stepTuple s) := by
  induction R generalizing P s with
  | nil =>
    rw [hall, List.append_nil]
    exact hinv
  | cons t R ih =>
    rw [List.foldl_cons]
    apply ih (P ++ [t])
    · rw [hall, List.append_assoc, List.singleton_append]
    · exact genInv_step P R t s hall hinv

theorem generate_inv (allPossiblePuzzles : List Nat) :
    GenInv allTuples (GenerateAllPossiblePuzzles allPossiblePuzzles) := by
  rw [generate_eq_foldl]
  apply genInv_foldl allTuples [] [] rfl
  refine ⟨?_, rfl, List.nodup_nil⟩
  intro k
  simp

/-- The keys in the catalogue are the keys of the canonical quadruples of `[10,30]^4`. -/
theorem mem_generate_iff (allPossiblePuzzles : List Nat) (k : Nat) :
    k ∈ GenerateAllPossiblePuzzles allPossiblePuzzles ↔
      ∃ t, InDomain t ∧ IsCanonical t ∧ k = packTuple t := by
  rw [(generate_inv allPossiblePuzzles).1 k]
  constructor
  · rintro ⟨t, ht, h⟩
    exact ⟨t, (mem_allTuples t).1 ht, h⟩
  · rintro ⟨t, ht, h⟩
    exact ⟨t, (mem_allTuples t).2 ht, h⟩

/-! ### Size of the catalogue -/

theorem isCanonical_iff (a b c d : Nat) :
    IsCanonical (a, b, c, d) ↔
      (code (a, b, c, d) ≤ code (b, a, d, c) ∧ code (a, b, c, d) ≤ code (c, d, a, b) ∧
       code (a, b, c, d) ≤ code (a, c, b, d) ∧ code (a, b, c, d) ≤ code (d, b, c, a) ∧
       code (a, b, c, d) ≤ code (c, a, d, b) ∧ code (a, b, c, d) ≤ code (b, d, a, c) ∧
       code (a, b, c, d) ≤ code (d, c, b, a)) := by
  unfold IsCanonical
  simp only [images, List.forall_mem_cons, List.not_mem_nil, le_refl, true_and]
  constructor
  · intro h
    exact ⟨h.1, h.2.1, h.2.2.1, h.2.2.2.1, h.2.2.2.2.1, h.2.2.2.2.2.1, h.2.2.2.2.2.2.1⟩
  · intro h
    exact ⟨h.1, h.2.1, h.2.2.1, h.2.2.2.1, h.2.2.2.2.1, h.2.2.2.2.2.1, h.2.2.2.2.2.2,
      fun _ hx => absurd hx (by simp)⟩

theorem countP_ge_sumRange (lo : Nat) (h1 : 10 ≤ lo) (h2 : lo ≤ 30) :
    sumRange.countP (fun d => decide (lo ≤ d)) = 31 - lo := by
  interval_cases lo <;> rfl

theorem countP_canonical_d (a b c : Nat) (ha : a ∈ sumRange) (hb : b ∈ sumRange)
    (hc : c ∈ sumRange) :
    sumRange.countP (fun d => decide (IsCanonical (a, b, c, d))) = countD a b c := by
  simp only [sumRange, List.mem_range'_1] at ha hb hc
  unfold countD
  by_cases habc : a ≤ b ∧ b ≤ c
  · rw [if_pos habc]
    have hlo : 10 ≤ (if a < b then a else if b < c then c else a) ∧
        (if a < b then a else if b < c then c else a) ≤ 30 := by
      split_ifs <;> omega
    rw [← countP_ge_sumRange _ hlo.1 hlo.2]
    apply List.countP_congr
    intro d hd
    simp only [sumRange, List.mem_range'_1] at hd
    simp only [decide_eq_true_eq]
    rw [isCanonical_iff]
    simp only [code]
    split_ifs <;> omega
  · rw [if_neg habc]
    rw [List.countP_eq_zero]
    intro d hd
    simp only [sumRange, List.mem_range'_1] at hd
    simp only [decide_eq_true_eq]
    rw [isCanonical_iff]
    simp only [code]
    omega

theorem countP_flatMap_eq {α β : Type} (p : β → Bool) (f : α → List β) (l : List α) :
    (l.flatMap f).countP p = (l.map fun a => (f a).countP p).sum := by
  induction l with
  | nil => rfl
  | cons a l ih => simp only [List.flatMap_cons, List.countP_append, List.map_cons,
      List.sum_cons, ih]

theorem sum_map_congr {α : Type} (l : List α) (f g : α → Nat) (h : ∀ a ∈ l, f a = g a) :
    (l.map f).sum = (l.map g).sum := by
  rw [List.map_congr_left h]

theorem countP_canonical_allTuples :
    allTuples.countP (fun t => decide (IsCanonical t)) =
      (sumRange.map fun a => (sumRange.map fun b =>
        (sumRange.map fun c => countD a b c).sum).sum).sum := by
  unfold allTuples
  rw [countP_flatMap_eq]
  apply sum_map_congr
  intro a ha
  rw [countP_flatMap_eq]
  apply sum_map_congr
  intro b hb
  rw [countP_flatMap_eq]
  apply sum_map_congr
  intro c hc
  rw [List.countP_map]
  exact countP_canonical_d a b c ha hb hc

theorem sum_countD :
    (sumRange.map fun a => (sumRange.map fun b =>
      (sumRange.map fun c => countD a b c).sum).sum).sum = 26796 := by
  decide!

theorem length_generate (allPossiblePuzzles : List Nat) :
    (GenerateAllPossiblePuzzles allPossiblePuzzles).length = 26796 := by
  rw [(generate_inv allPossiblePuzzles).2.1, countP_canonical_allTuples, sum_countD]

/-- Two canonical quadruples among the images of one quadruple coincide. -/
theorem canonical_unique (t u v : Nat × Nat × Nat × Nat) (ht : InDomain t)
    (hu : u ∈ images t) (hv : v ∈ images t) (hcu : IsCanonical u) (hcv : IsCanonical v) :
    u = v := by
  have huv : v ∈ images u := images_trans u t v (images_symm t u hu) hv
  have hvu : u ∈ images v := images_symm u v huv
  exact code_injective u v (images_inDomain t u hu ht) (images_inDomain t v hv ht)
    (le_antisymm (hcu v huv) (hcv u hvu))

/-- C3. The canonical set is a transversal of the symmetry classes: every key produced by
`GenerateAllPossiblePuzzles` decodes to a quadruple of `[10,30]^4`; for every quadruple of
`[10,30]^4` exactly one key of the set decodes to one of its eight images; hence two keys
of the set that are related by one of the eight transformations are equal. -/
theorem generate_transversal (allPossiblePuzzles : List Nat) :
    (∀ k ∈ GenerateAllPossiblePuzzles allPossiblePuzzles, InDomain (decodeKey k)) ∧
    (∀ a b c d : Nat, 10 ≤ a ∧ a ≤ 30 → 10 ≤ b ∧ b ≤ 30 → 10 ≤ c ∧ c ≤ 30 →
      10 ≤ d ∧ d ≤ 30 →
      ∃! k, k ∈ GenerateAllPossiblePuzzles allPossiblePuzzles ∧
        decodeKey k ∈
          [(a, b, c, d), (b, a, d, c), (c, d, a, b), (a, c, b, d), (d, b, c, a), (c, a, d, b),
           (b, d, a, c), (d, c, b, a)]) ∧
    (∀ k1 ∈ GenerateAllPossiblePuzzles allPossiblePuzzles,
      ∀ k2 ∈ GenerateAllPossiblePuzzles allPossiblePuzzles,
        decodeKey k2 ∈ images (decodeKey k1) → k1 = k2) := by
  have hdec : ∀ k ∈ GenerateAllPossiblePuzzles allPossiblePuzzles,
      ∃ t, InDomain t ∧ IsCanonical t ∧ k = packTuple t ∧ decodeKey k = t := by
    intro k hk
    obtain ⟨t, ht, hc, hkt⟩ := (mem_generate_iff allPossiblePuzzles k).1 hk
    exact ⟨t, ht, hc, hkt, by rw [hkt]; exact decodeKey_packTuple t ht⟩
  have huniq : ∀ t, InDomain t →
      ∃! k, k ∈ GenerateAllPossiblePuzzles allPossiblePuzzles ∧ decodeKey k ∈ images t := by
    intro t ht
    obtain ⟨m, hm, hmc, _⟩ := exists_canonical_image t
    have hmD := images_inDomain t m hm ht
    refine ⟨packTuple m, ⟨(mem_generate_iff _ _).2 ⟨m, hmD, hmc, rfl⟩, ?_⟩, ?_⟩
    · rw [decodeKey_packTuple m hmD]
      exact hm
    · rintro k ⟨hk, hkt⟩
      obtain ⟨u, _, huc, hku, hdu⟩ := hdec k hk
      rw [hdu] at hkt
      rw [hku, canonical_unique t u m ht hkt hm huc hmc]
  refine ⟨?_, ?_, ?_⟩
  · intro k hk
    obtain ⟨t, ht, _, _, hd⟩ := hdec k hk
    rw [hd]
    exact ht
  · intro a b c d ha hb hc hd
    exact huniq (a, b, c, d) ⟨ha, hb, hc, hd⟩
  · intro k1 hk1 k2 hk2 h
    obtain ⟨t, ht, _, _, hd⟩ := hdec k1 hk1
    rw [hd] at h
    obtain ⟨k, _, hk⟩ := huniq t ht
    have e1 : k1 = k := hk k1 ⟨hk1, by rw [hd]; exact images_mem_self t⟩
    have e2 : k2 = k := hk k2 ⟨hk2, h⟩
    rw [e1, e2]

/-- C4. After `GenerateAllPossiblePuzzles` the set holds exactly 26,796 pairwise different
keys, which is `n(n+1)(n^2+n+2)/8` for `n = 21`. -/
theorem generate_cardinality (allPossiblePuzzles : List Nat) :
    (GenerateAllPossiblePuzzles allPossiblePuzzles).length = 26796 ∧
    (GenerateAllPossiblePuzzles allPossiblePuzzles).Nodup ∧
    21 * (21 + 1) * (21 ^ 2 + 21 + 2) / 8 = 26796 :=
  ⟨length_generate allPossiblePuzzles, (generate_inv allPossiblePuzzles).2.2, by norm_num⟩

/-- Exactly one key of the catalogue decodes to an image of (14,10,19,22). -/
theorem generate_transversal_witness :
    ∃! k, k ∈ GenerateAllPossiblePuzzles [] ∧
      decodeKey k ∈
        [(14, 10, 19, 22), (10, 14, 22, 19), (19, 22, 14, 10), (14, 19, 10, 22),
         (22, 10, 19, 14), (19, 14, 22, 10), (10, 22, 14, 19), (22, 19, 10, 14)] :=
  (generate_transversal []).2.1 14 10 19 22 (by decide) (by decide) (by decide) (by decide)

/-- C7. With all nine clues blank, the sums (10,14,19,22) have exactly one solution and the
sums (14,10,19,22) have none, so `countSolutions` differs between the two puzzles; the
second quadruple is not one of the eight images of the first. -/
theorem countSolutions_asymmetric :
    (blankPuzzle 10 14 19 22).countSolutions = 1 ∧
    (blankPuzzle 14 10 19 22).countSolutions = 0 ∧
    (blankPuzzle 10 14 19 22).countSolutions ≠ (blankPuzzle 14 10 19 22).countSolutions ∧
    ((14, 10, 19, 22) : Nat × Nat × Nat × Nat) ∉ images (10, 14, 19, 22) := by
  have h1 : (blankPuzzle 10 14 19 22).countSolutions = 1 := by
    unfold Sujiko.countSolutions
    simp only [blank_10_14_19_22]
    rfl
  have h2 : (blankPuzzle 14 10 19 22).countSolutions = 0 :=
    countSolutions_of_nil _ (blank_14_10_19_22 [])
  refine ⟨h1, h2, ?_, by decide⟩
  rw [h1, h2]
  decide

/-! ## `countSolutions` and the effect of clues -/

/-- C11. `countSolutions` is exactly the length of `allSolutions`: it returns the number of
elements that `allSolutions` places in its result for the same puzzle, whatever the result
vector held before the call. -/
theorem countSolutions_eq_length (puz : Sujiko) (results : List Solution) :
    puz.countSolutions = ((puz.allSolutions results).length : Int) := by
  show ((puz.allSolutions []).length : Int) = _
  rw [allSolutions_eq puz [], allSolutions_eq puz results]

theorem withoutClues_cluesMatch (puz : Sujiko) (p : List Int) :
    CluesMatch puz.withoutClues p :=
  fun _ h => absurd rfl h

theorem isValidSolution_withoutClues (puz : Sujiko) (p : List Int) :
    puz.isValidSolution p =
      (puz.cluesAgree p (List.finRange 9) && puz.withoutClues.isValidSolution p) := by
  rw [Bool.eq_iff_iff]
  simp only [Bool.and_eq_true, isValidSolution_iff, cluesAgree_iff]
  constructor
  · rintro ⟨hc, hs⟩
    exact ⟨fun i _ => hc i, withoutClues_cluesMatch puz p, hs⟩
  · rintro ⟨hc, _, hs⟩
    exact ⟨fun i => hc i (List.mem_finRange i), hs⟩

theorem allSolutions_filter_clues (puz : Sujiko) (results results2 : List Solution) :
    puz.allSolutions results =
      (puz.withoutClues.allSolutions results2).filter
        (fun r => puz.cluesAgree r.mValues (List.finRange 9)) := by
  rw [allSolutions_eq, allSolutions_eq, List.filter_map, List.filter_filter]
  congr 1
  apply List.filter_congr
  intro p _
  rw [isValidSolution_withoutClues]
  rfl

/-- A grid of nine cells that carries all nine clues of a puzzle is its clue grid. -/
theorem eq_clueGrid (puz : Sujiko) (p : List Int) (hlen : p.length = 9)
    (h : ∀ i : Fin 9, cell p i.val = puz.mClues i) : p = puz.clueGrid := by
  apply List.ext_getElem
  · simp [Sujiko.clueGrid, hlen]
  · intro n h1 h2
    have hn : n < 9 := by rw [← hlen]; exact h1
    have := h ⟨n, hn⟩
    unfold cell at this
    rw [List.getD_eq_getElem _ _ h1] at this
    simp only [Sujiko.clueGrid, List.getElem_ofFn]
    exact this

theorem cell_clueGrid (puz : Sujiko) (i : Fin 9) : cell puz.clueGrid i.val = puz.mClues i := by
  unfold cell Sujiko.clueGrid
  have hlt : i.val < (List.ofFn puz.mClues).length := by
    rw [List.length_ofFn]
    exact i.isLt
  rw [List.getD_eq_getElem _ _ hlt, List.getElem_ofFn]

/-- C20. Clues act as a pure filter on the blank-clue solutions: the result for `(C, S)` is
the result for (all-blank clues, `S`) filtered, in order, to the solutions that carry every
non-blank clue; so it is a sublist of the blank-clue result, and when `C` is itself a
permutation of 1..9 the result is `[C]` if the four sub-square sums of `C` equal `S` and
empty otherwise. -/
theorem allSolutions_clues_filter (puz : Sujiko) (results results2 : List Solution) :
    puz.allSolutions results =
      ((Sujiko.mk (fun _ => 0) puz.mCentres).allSolutions results2).filter
        (fun r => decide (∀ i : Fin 9, puz.mClues i ≠ 0 → cell r.mValues i.val = puz.mClues i)) ∧
    (puz.allSolutions results).Sublist
      ((Sujiko.mk (fun _ => 0) puz.mCentres).allSolutions results2) ∧
    ((List.ofFn puz.mClues).Perm [1, 2, 3, 4, 5, 6, 7, 8, 9] →
      puz.allSolutions results =
        if puz.mClues 0 + puz.mClues 1 + puz.mClues 3 + puz.mClues 4 = puz.mCentres 0 ∧
           puz.mClues 1 + puz.mClues 2 + puz.mClues 4 + puz.mClues 5 = puz.mCentres 1 ∧
           puz.mClues 3 + puz.mClues 4 + puz.mClues 6 + puz.mClues 7 = puz.mCentres 2 ∧
           puz.mClues 4 + puz.mClues 5 + puz.mClues 7 + puz.mClues 8 = puz.mCentres 3
        then [⟨List.ofFn puz.mClues⟩] else []) := by
  have hfilter : puz.allSolutions results =
      (puz.withoutClues.allSolutions results2).filter
        (fun r => decide (∀ i : Fin 9, puz.mClues i ≠ 0 →
          cell r.mValues i.val = puz.mClues i)) := by
    rw [allSolutions_filter_clues puz results results2]
    apply List.filter_congr
    intro r _
    rw [Bool.eq_iff_iff, cluesAgree_iff, decide_eq_true_iff]
    exact ⟨fun h i => h i (List.mem_finRange i), fun h i _ => h i⟩
  refine ⟨hfilter, ?_, ?_⟩
  · rw [hfilter]
    exact List.filter_sublist _
  · intro hperm
    have hperm2 : puz.clueGrid.Perm start_guess := hperm
    have hnz : ∀ i : Fin 9, puz.mClues i ≠ 0 := by
      intro i h0
      have hmem : puz.mClues i ∈ puz.clueGrid := by
        unfold Sujiko.clueGrid
        rw [List.mem_ofFn]
        exact ⟨i, rfl⟩
      have := (perm_start_guess_elim _ hperm2).2.1 _ hmem
      omega
    have hsums : SumsMatch puz puz.clueGrid ↔
        (puz.mClues 0 + puz.mClues 1 + puz.mClues 3 + puz.mClues 4 = puz.mCentres 0 ∧
         puz.mClues 1 + puz.mClues 2 + puz.mClues 4 + puz.mClues 5 = puz.mCentres 1 ∧
         puz.mClues 3 + puz.mClues 4 + puz.mClues 6 + puz.mClues 7 = puz.mCentres 2 ∧
         puz.mClues 4 + puz.mClues 5 + puz.mClues 7 + puz.mClues 8 = puz.mCentres 3) := by
      unfold SumsMatch
      have e0 := cell_clueGrid puz 0
      have e1 := cell_clueGrid puz 1
      have e2 := cell_clueGrid puz 2
      have e3 := cell_clueGrid puz 3
      have e4 := cell_clueGrid puz 4
      have e5 := cell_clueGrid puz 5
      have e6 := cell_clueGrid puz 6
      have e7 := cell_clueGrid puz 7
      have e8 := cell_clueGrid puz 8
      simp only [Fin.val_zero, Fin.val_one] at e0 e1
      have v2 : ((2 : Fin 9) : Nat) = 2 := rfl
      have v3 : ((3 : Fin 9) : Nat) = 3 := rfl
      have v4 : ((4 : Fin 9) : Nat) = 4 := rfl
      have v5 : ((5 : Fin 9) : Nat) = 5 := rfl
      have v6 : ((6 : Fin 9) : Nat) = 6 := rfl
      have v7 : ((7 : Fin 9) : Nat) = 7 := rfl
      have v8 : ((8 : Fin 9) : Nat) = 8 := rfl
      rw [v2] at e2
      rw [v3] at e3
      rw [v4] at e4
      rw [v5] at e5
      rw [v6] at e6
      rw [v7] at e7
      rw [v8] at e8
      rw [e0, e1, e2, e3, e4, e5, e6, e7, e8]
    have hcm : ∀ p : List Int, p.Perm start_guess → CluesMatch puz p → p = puz.clueGrid :=
      fun p hp hc => eq_clueGrid puz p hp.length_eq (fun i => hc i (hnz i))
    show puz.allSolutions results = if _ then [⟨puz.clueGrid⟩] else []
    by_cases hs : SumsMatch puz puz.clueGrid
    · rw [if_pos (hsums.1 hs)]
      apply allSolutions_eq_list puz results [puz.clueGrid] (List.pairwise_singleton _ _)
      · intro p hp
        rw [List.mem_singleton.1 hp]
        exact ⟨hperm2, fun i _ => cell_clueGrid puz i, hs⟩
      · intro p hp hc _
        rw [hcm p hp hc]
        exact List.mem_singleton_self _
    · rw [if_neg (fun h => hs (hsums.2 h))]
      apply allSolutions_eq_list puz results [] List.Pairwise.nil
      · intro p hp
        cases hp
      · intro p hp hc hsp
        rw [hcm p hp hc] at hsp
        exact absurd hsp hs

/-- A fully clued puzzle whose clues are a solution has that solution only. -/
theorem allSolutions_clues_filter_witness :
    solvedPuzzle.allSolutions [] =
      if solvedPuzzle.mClues 0 + solvedPuzzle.mClues 1 + solvedPuzzle.mClues 3
            + solvedPuzzle.mClues 4 = solvedPuzzle.mCentres 0 ∧
         solvedPuzzle.mClues 1 + solvedPuzzle.mClues 2 + solvedPuzzle.mClues 4
            + solvedPuzzle.mClues 5 = solvedPuzzle.mCentres 1 ∧
         solvedPuzzle.mClues 3 + solvedPuzzle.mClues 4 + solvedPuzzle.mClues 6
            + solvedPuzzle.mClues 7 = solvedPuzzle.mCentres 2 ∧
         solvedPuzzle.mClues 4 + solvedPuzzle.mClues 5 + solvedPuzzle.mClues 7
            + solvedPuzzle.mClues 8 = solvedPuzzle.mCentres 3
      then [⟨List.ofFn solvedPuzzle.mClues⟩] else [] :=
  (allSolutions_clues_filter solvedPuzzle [] []).2.2 (by decide)

/-! ## Keys: packing, unpacking and the canonical representative -/

/-- C18. Pack/unpack round trip: for bytes `a b c d` the key `a + (b<<8) + (c<<16) + (d<<24)`
decodes, by `& 0xff` after the shifts `>> 0, 8, 16, 24`, to `(a, b, c, d)`; hence the packing
is injective on bytes, and a key belongs to the keys of a collection of byte quadruples
exactly when its quadruple belongs to the collection. -/
theorem pack_unpack_roundtrip :
    (∀ a b c d : Nat, a < 256 → b < 256 → c < 256 → d < 256 →
      decodeKey (puzDefOf a b c d) = (a, b, c, d)) ∧
    (∀ a b c d a2 b2 c2 d2 : Nat, a < 256 → b < 256 → c < 256 → d < 256 →
      a2 < 256 → b2 < 256 → c2 < 256 → d2 < 256 →
      puzDefOf a b c d = puzDefOf a2 b2 c2 d2 → (a, b, c, d) = (a2, b2, c2, d2)) ∧
    (∀ (quads : List (Nat × Nat × Nat × Nat)) (a b c d : Nat),
      (∀ q ∈ quads, q.1 < 256 ∧ q.2.1 < 256 ∧ q.2.2.1 < 256 ∧ q.2.2.2 < 256) →
      a < 256 → b < 256 → c < 256 → d < 256 →
      (puzDefOf a b c d ∈ quads.map (fun q => puzDefOf q.1 q.2.1 q.2.2.1 q.2.2.2) ↔
        (a, b, c, d) ∈ quads)) := by
  have hinj : ∀ a b c d a2 b2 c2 d2 : Nat, a < 256 → b < 256 → c < 256 → d < 256 →
      a2 < 256 → b2 < 256 → c2 < 256 → d2 < 256 →
      puzDefOf a b c d = puzDefOf a2 b2 c2 d2 → (a, b, c, d) = (a2, b2, c2, d2) := by
    intro a b c d a2 b2 c2 d2 ha hb hc hd ha2 hb2 hc2 hd2 h
    rw [← decodeKey_puzDefOf a b c d ha hb hc hd, ← decodeKey_puzDefOf a2 b2 c2 d2 ha2 hb2 hc2 hd2,
      h]
  refine ⟨decodeKey_puzDefOf, hinj, ?_⟩
  intro quads a b c d hq ha hb hc hd
  rw [List.mem_map]
  constructor
  · rintro ⟨⟨a2, b2, c2, d2⟩, hmem, hkey⟩
    obtain ⟨h1, h2, h3, h4⟩ := hq _ hmem
    rw [← hinj a2 b2 c2 d2 a b c d h1 h2 h3 h4 ha hb hc hd hkey]
    exact hmem
  · intro hmem
    exact ⟨(a, b, c, d), hmem, rfl⟩

/-- The key of (22,15,17,21) decodes to (22,15,17,21). -/
theorem pack_unpack_roundtrip_witness : decodeKey (puzDefOf 22 15 17 21) = (22, 15, 17, 21) :=
  pack_unpack_roundtrip.1 22 15 17 21 (by decide) (by decide) (by decide) (by decide)

theorem code_le_iff_lexLe4 (t u : Nat × Nat × Nat × Nat) (ht : InDomain t) (hu : InDomain u) :
    code t ≤ code u ↔ LexLe4 t u := by
  obtain ⟨a, b, c, d⟩ := t
  obtain ⟨a2, b2, c2, d2⟩ := u
  simp only [InDomain] at ht hu
  simp only [code, LexLe4]
  omega

theorem mem_generate_packTuple (allPossiblePuzzles : List Nat) (t : Nat × Nat × Nat × Nat)
    (ht : InDomain t) :
    packTuple t ∈ GenerateAllPossiblePuzzles allPossiblePuzzles ↔ IsCanonical t := by
  rw [mem_generate_iff]
  constructor
  · rintro ⟨u, hu, hc, hk⟩
    rw [packTuple_injective t u ht hu hk]
    exact hc
  · intro hc
    exact ⟨t, ht, hc, rfl⟩

/-- C16. The canonical representative is the first tuple of its class in iteration order: a
quadruple `(a, b, c, d)` of `[10,30]^4` has its key in the set built by
`GenerateAllPossiblePuzzles` if and only if it is lexicographically less than or equal to
each of its eight images. -/
theorem generate_canonical_is_lex_least (allPossiblePuzzles : List Nat) (a b c d : Nat)
    (ha : 10 ≤ a ∧ a ≤ 30) (hb : 10 ≤ b ∧ b ≤ 30) (hc : 10 ≤ c ∧ c ≤ 30)
    (hd : 10 ≤ d ∧ d ≤ 30) :
    puzDefOf a b c d ∈ GenerateAllPossiblePuzzles allPossiblePuzzles ↔
      ∀ u ∈ [(a, b, c, d), (b, a, d, c), (c, d, a, b), (a, c, b, d), (d, b, c, a),
             (c, a, d, b), (b, d, a, c), (d, c, b, a)], LexLe4 (a, b, c, d) u := by
  have ht : InDomain (a, b, c, d) := ⟨ha, hb, hc, hd⟩
  have h := mem_generate_packTuple allPossiblePuzzles (a, b, c, d) ht
  have hp : packTuple (a, b, c, d) = puzDefOf a b c d := by
    unfold packTuple
    simp only
  rw [hp] at h
  rw [h]
  unfold IsCanonical
  constructor
  · intro hcan u hu
    exact (code_le_iff_lexLe4 _ u ht (images_inDomain (a, b, c, d) u hu ht)).1 (hcan u hu)
  · intro hlex u hu
    exact (code_le_iff_lexLe4 _ u ht (images_inDomain (a, b, c, d) u hu ht)).2 (hlex u hu)

/-- The quadruple (10,14,19,22) is in the catalogue; it is the least of its images. -/
theorem generate_canonical_is_lex_least_witness :
    puzDefOf 10 14 19 22 ∈ GenerateAllPossiblePuzzles [] ↔
      ∀ u ∈ [(10, 14, 19, 22), (14, 10, 22, 19), (19, 22, 10, 14), (10, 19, 14, 22),
             (22, 14, 19, 10), (19, 10, 22, 14), (14, 22, 10, 19), (22, 19, 14, 10)],
        LexLe4 (10, 14, 19, 22) u :=
  generate_canonical_is_lex_least [] 10 14 19 22 (by decide) (by decide) (by decide)
    (by decide)

/-! ## The eight rearrangements as a group -/

theorem images_eq_map_rearrange (t : Nat × Nat × Nat × Nat) :
    images t = positionMaps.map (fun σ => rearrange σ t) := by
  obtain ⟨a, b, c, d⟩ := t
  rfl

theorem positionMaps_group :
    positionMaps.Nodup ∧ positionMaps.length = 8 ∧
    (∀ σ ∈ positionMaps, Function.Bijective σ) ∧
    (id ∈ positionMaps) ∧
    (∀ σ ∈ positionMaps, ∀ τ ∈ positionMaps, σ ∘ τ ∈ positionMaps) ∧
    (∀ σ ∈ positionMaps, ∃ τ ∈ positionMaps, σ ∘ τ = id ∧ τ ∘ σ = id) := by
  refine ⟨?_, ?_, ?_, ?_, ?_, ?_⟩
  · decide!
  · decide!
  · decide!
  · decide!
  · decide!
  · decide!

theorem positionMaps_square :
    ∀ σ : Fin 4 → Fin 4, σ ∈ positionMaps ↔
        (Function.Bijective σ ∧ ∀ i j : Fin 4, Adjacent i j → Adjacent (σ i) (σ j)) := by
  decide!

theorem rearrange_comp (σ τ : Fin 4 → Fin 4) (t : Nat × Nat × Nat × Nat) :
    rearrange (σ ∘ τ) t = rearrange τ (rearrange σ t) := by
  obtain ⟨a, b, c, d⟩ := t
  have h : ∀ i : Fin 4, component (rearrange σ (a, b, c, d)) i = component (a, b, c, d) (σ i) := by
    intro i
    fin_cases i <;> rfl
  unfold rearrange
  simp only [Function.comp]
  rw [← h, ← h, ← h, ← h]
  rfl

/-- C17. The eight tuple rearrangements tested in `GenerateAllPossiblePuzzles` form a group of
order 8 acting on 4-tuples: as maps of the four positions they are pairwise distinct
bijections, they contain the identity, the composition of any two is one of the eight and
each has its inverse among the eight; composing position maps composes the rearrangements
of tuples; and they are exactly the bijections of the positions top-left, top-right,
bottom-left, bottom-right that keep neighbours on the square neighbours, i.e. the dihedral
group of the square. -/
theorem rearrangements_form_group :
    (∀ t : Nat × Nat × Nat × Nat, images t = positionMaps.map (fun σ => rearrange σ t)) ∧
    positionMaps.Nodup ∧ positionMaps.length = 8 ∧
    (∀ σ ∈ positionMaps, Function.Bijective σ) ∧
    (id ∈ positionMaps) ∧
    (∀ σ ∈ positionMaps, ∀ τ ∈ positionMaps, σ ∘ τ ∈ positionMaps) ∧
    (∀ σ ∈ positionMaps, ∃ τ ∈ positionMaps, σ ∘ τ = id ∧ τ ∘ σ = id) ∧
    (∀ (σ τ : Fin 4 → Fin 4) (t : Nat × Nat × Nat × Nat),
      rearrange (σ ∘ τ) t = rearrange τ (rearrange σ t)) ∧
    (∀ t u v : Nat × Nat × Nat × Nat, u ∈ images t → v ∈ images u → v ∈ images t) ∧
    (∀ t u : Nat × Nat × Nat × Nat, u ∈ images t → t ∈ images u) ∧
    (∀ σ : Fin 4 → Fin 4, σ ∈ positionMaps ↔
      (Function.Bijective σ ∧ ∀ i j : Fin 4, Adjacent i j → Adjacent (σ i) (σ j))) :=
  ⟨images_eq_map_rearrange, positionMaps_group.1, positionMaps_group.2.1,
    positionMaps_group.2.2.1, positionMaps_group.2.2.2.1, positionMaps_group.2.2.2.2.1,
    positionMaps_group.2.2.2.2.2, rearrange_comp, images_trans, images_symm,
    positionMaps_square⟩

/-! ## The search loop is exhaustive -/

theorem candidatesFrom_chain (g : List Int) :
    (candidatesFrom g).head? = some g ∧
    (candidatesFrom g).Chain' (fun p q => next_permutation p = (true, q)) ∧
    ∃ m g2, (candidatesFrom g).getLast? = some m ∧ next_permutation m = (false, g2) := by
  generalize hn : stepsLeft g = n
  induction n using Nat.strong_induction_on generalizing g with
  | _ n ih =>
    rcases hnext : next_permutation g with ⟨b, g2⟩
    cases b
    · rw [candidatesFrom_false g g2 hnext]
      exact ⟨rfl, List.chain'_singleton _, g, g2, rfl, hnext⟩
    · rw [candidatesFrom_true g g2 hnext]
      obtain ⟨h1, h2, m, g3, h3, h4⟩ := ih _ (hn ▸ stepsLeft_lt _ _ hnext) g2 rfl
      refine ⟨rfl, ?_, m, g3, ?_, h4⟩
      · rw [List.chain'_cons']
        refine ⟨?_, h2⟩
        intro y hy
        rw [h1] at hy
        cases hy
        exact hnext
      · cases hc : candidatesFrom g2 with
        | nil => rw [hc] at h1; cases h1
        | cons x xs =>
          rw [hc] at h3
          rw [List.getLast?_cons_cons]
          exact h3

theorem candidates_perm_permutations :
    (candidatesFrom start_guess).Perm start_guess.permutations := by
  have hnd1 : (candidatesFrom start_guess).Nodup := by
    refine candidates_pairwise.imp ?_
    intro a b hab heq
    rw [heq] at hab
    exact lexLt_irrefl _ hab
  have hnd2 : start_guess.permutations.Nodup :=
    List.nodup_permutations _ (by simp [start_guess])
  rw [List.perm_ext_iff_of_nodup hnd1 hnd2]
  intro p
  rw [mem_candidates_iff, List.mem_permutations]

theorem length_candidates : (candidatesFrom start_guess).length = 362880 := by
  rw [candidates_perm_permutations.length_eq, List.length_permutations]
  rfl

theorem getLast_candidates : (candidatesFrom start_guess).getLast? = some last_guess := by
  obtain ⟨_, _, m, g2, hlast, hnext⟩ := candidatesFrom_chain start_guess
  rw [hlast]
  congr 1
  have hm : m ∈ candidatesFrom start_guess := List.mem_of_getLast?_eq_some hlast
  have hmp : m.Perm start_guess := (mem_candidates_iff m).1 hm
  obtain ⟨_, hmax, _⟩ := (next_permutation_spec m).2 g2 hnext
  have hl : next_permutation last_guess = (false, start_guess) := by decide
  obtain ⟨_, hmaxl, _⟩ := (next_permutation_spec last_guess).2 _ hl
  have hlp : last_guess.Perm start_guess := by decide
  rcases lexLt_trichotomy m last_guess with h | h | h
  · exact absurd h (hmax _ (hlp.trans hmp.symm))
  · exact h
  · exact absurd h (hmaxl _ (hmp.trans hlp.symm))

/-- C19. The search loop of `allSolutions` terminates and is exhaustive: whatever the clues
and sums, it starts at 1,2,...,9, advances with `next_permutation`, tests exactly
9! = 362,880 candidates, pairwise distinct, each a permutation of 1..9, and stops after
testing 9,8,...,1, where `next_permutation` reports `false`; the result is the list of the
candidates that pass `isValidSolution`. -/
theorem search_loop_exhaustive (puz : Sujiko) (results : List Solution) :
    puz.allSolutions results =
      ((candidatesFrom [1, 2, 3, 4, 5, 6, 7, 8, 9]).filter puz.isValidSolution).map Solution.mk ∧
    (candidatesFrom [1, 2, 3, 4, 5, 6, 7, 8, 9]).length = 362880 ∧
    Nat.factorial 9 = 362880 ∧
    (candidatesFrom [1, 2, 3, 4, 5, 6, 7, 8, 9]).Nodup ∧
    (∀ p ∈ candidatesFrom [1, 2, 3, 4, 5, 6, 7, 8, 9], p.Perm [1, 2, 3, 4, 5, 6, 7, 8, 9]) ∧
    (candidatesFrom [1, 2, 3, 4, 5, 6, 7, 8, 9]).head? = some [1, 2, 3, 4, 5, 6, 7, 8, 9] ∧
    (candidatesFrom [1, 2, 3, 4, 5, 6, 7, 8, 9]).Chain'
      (fun p q => next_permutation p = (true, q)) ∧
    (candidatesFrom [1, 2, 3, 4, 5, 6, 7, 8, 9]).getLast? = some [9, 8, 7, 6, 5, 4, 3, 2, 1] ∧
    (next_permutation [9, 8, 7, 6, 5, 4, 3, 2, 1]).1 = false := by
  refine ⟨allSolutions_eq puz results, length_candidates, rfl, ?_,
    fun p hp => (mem_candidates_iff p).1 hp, (candidatesFrom_chain start_guess).1,
    (candidatesFrom_chain start_guess).2.1, getLast_candidates, by decide⟩
  refine candidates_pairwise.imp ?_
  intro a b hab heq
  rw [heq] at hab
  exact lexLt_irrefl _ hab

/-! ## Solution counts are invariant under the symmetries -/

theorem length_le_of_injOn_map (P Q : Sujiko) (f : List Int → List Int)
    (hinj : ∀ p q : List Int, p.Perm start_guess → q.Perm start_guess → f p = f q → p = q)
    (hmap : ∀ p : List Int, p.Perm start_guess → SumsMatch P p → CluesMatch P p →
      (f p).Perm start_guess ∧ CluesMatch Q (f p) ∧ SumsMatch Q (f p)) :
    P.countSolutions ≤ Q.countSolutions := by
  unfold Sujiko.countSolutions
  simp only [Nat.cast_le]
  have hnd : ((P.allSolutions []).map (fun r => Solution.mk (f r.mValues))).Nodup := by
    refine List.Nodup.map_on ?_ (allSolutions_nodup P [])
    intro x hx y hy hxy
    have hx2 := ((mem_allSolutions_iff P [] x).1 hx).1
    have hy2 := ((mem_allSolutions_iff P [] y).1 hy).1
    have h := hinj _ _ hx2 hy2 (Solution.mk.inj hxy)
    cases x
    cases y
    simp only at h
    rw [h]
  have hsub : (P.allSolutions []).map (fun r => Solution.mk (f r.mValues)) ⊆
      Q.allSolutions [] := by
    intro y hy
    obtain ⟨x, hx, rfl⟩ := List.mem_map.1 hy
    obtain ⟨h1, h2, h3⟩ := (mem_allSolutions_iff P [] x).1 hx
    exact (mem_allSolutions_iff Q [] _).2 (hmap _ h1 h3 h2)
  have := (List.subperm_of_subset hnd hsub).length_le
  rw [List.length_map] at this
  exact this

theorem mirrorGrid_spec (a b c d : Int) (p : List Int) (hp : p.Perm start_guess)
    (hs : SumsMatch (blankPuzzle a b c d) p) :
    (mirrorGrid p).Perm start_guess ∧ SumsMatch (blankPuzzle b a d c) (mirrorGrid p) ∧
      mirrorGrid (mirrorGrid p) = p := by
  obtain ⟨⟨x0, x1, x2, x3, x4, x5, x6, x7, x8, rfl⟩, _, _⟩ := perm_start_guess_elim p hp
  obtain ⟨h0, h1, h2, h3⟩ := hs
  simp only [cell, List.getD_cons_zero, List.getD_cons_succ] at h0 h1 h2 h3
  refine ⟨?_, ?_, rfl⟩
  · refine List.Perm.trans ?_ hp
    simp only [mirrorGrid, cell, List.getD_cons_zero, List.getD_cons_succ]
    rw [List.perm_iff_count]
    intro x
    simp only [List.count_cons, List.count_nil]
    ring
  · simp only [SumsMatch, mirrorGrid, cell, List.getD_cons_zero, List.getD_cons_succ]
    have e0 : (blankPuzzle a b c d).mCentres 0 = a := rfl
    have e1 : (blankPuzzle a b c d).mCentres 1 = b := rfl
    have e2 : (blankPuzzle a b c d).mCentres 2 = c := rfl
    have e3 : (blankPuzzle a b c d).mCentres 3 = d := rfl
    have f0 : (blankPuzzle b a d c).mCentres 0 = b := rfl
    have f1 : (blankPuzzle b a d c).mCentres 1 = a := rfl
    have f2 : (blankPuzzle b a d c).mCentres 2 = d := rfl
    have f3 : (blankPuzzle b a d c).mCentres 3 = c := rfl
    rw [e0] at h0
    rw [e1] at h1
    rw [e2] at h2
    rw [e3] at h3
    rw [f0, f1, f2, f3]
    omega

theorem transposeGrid_spec (a b c d : Int) (p : List Int) (hp : p.Perm start_guess)
    (hs : SumsMatch (blankPuzzle a b c d) p) :
    (transposeGrid p).Perm start_guess ∧ SumsMatch (blankPuzzle a c b d) (transposeGrid p) ∧
      transposeGrid (transposeGrid p) = p := by
  obtain ⟨⟨x0, x1, x2, x3, x4, x5, x6, x7, x8, rfl⟩, _, _⟩ := perm_start_guess_elim p hp
  obtain ⟨h0, h1, h2, h3⟩ := hs
  simp only [cell, List.getD_cons_zero, List.getD_cons_succ] at h0 h1 h2 h3
  refine ⟨?_, ?_, rfl⟩
  · refine List.Perm.trans ?_ hp
    simp only [transposeGrid, cell, List.getD_cons_zero, List.getD_cons_succ]
    rw [List.perm_iff_count]
    intro x
    simp only [List.count_cons, List.count_nil]
    ring
  · simp only [SumsMatch, transposeGrid, cell, List.getD_cons_zero, List.getD_cons_succ]
    have e0 : (blankPuzzle a b c d).mCentres 0 = a := rfl
    have e1 : (blankPuzzle a b c d).mCentres 1 = b := rfl
    have e2 : (blankPuzzle a b c d).mCentres 2 = c := rfl
    have e3 : (blankPuzzle a b c d).mCentres 3 = d := rfl
    have f0 : (blankPuzzle a c b d).mCentres 0 = a := rfl
    have f1 : (blankPuzzle a c b d).mCentres 1 = c := rfl
    have f2 : (blankPuzzle a c b d).mCentres 2 = b := rfl
    have f3 : (blankPuzzle a c b d).mCentres 3 = d := rfl
    rw [e0] at h0
    rw [e1] at h1
    rw [e2] at h2
    rw [e3] at h3
    rw [f0, f1, f2, f3]
    omega

theorem countSolutions_mirror_le (a b c d : Int) :
    (blankPuzzle a b c d).countSolutions ≤ (blankPuzzle b a d c).countSolutions := by
  apply length_le_of_injOn_map _ _ mirrorGrid
  · intro p q hp hq h
    obtain ⟨⟨x0, x1, x2, x3, x4, x5, x6, x7, x8, rfl⟩, _, _⟩ := perm_start_guess_elim p hp
    obtain ⟨⟨y0, y1, y2, y3, y4, y5, y6, y7, y8, rfl⟩, _, _⟩ := perm_start_guess_elim q hq
    simp only [mirrorGrid, cell, List.getD_cons_zero, List.getD_cons_succ, List.cons.injEq,
      and_true] at h
    obtain ⟨e2, e1, e0, e5, e4, e3, e8, e7, e6⟩ := h
    rw [e0, e1, e2, e3, e4, e5, e6, e7, e8]
  · intro p hp hs _
    obtain ⟨h1, h2, _⟩ := mirrorGrid_spec a b c d p hp hs
    exact ⟨h1, blank_cluesMatch _ _ _ _ _, h2⟩

theorem countSolutions_transpose_le (a b c d : Int) :
    (blankPuzzle a b c d).countSolutions ≤ (blankPuzzle a c b d).countSolutions := by
  apply length_le_of_injOn_map _ _ transposeGrid
  · intro p q hp hq h
    obtain ⟨⟨x0, x1, x2, x3, x4, x5, x6, x7, x8, rfl⟩, _, _⟩ := perm_start_guess_elim p hp
    obtain ⟨⟨y0, y1, y2, y3, y4, y5, y6, y7, y8, rfl⟩, _, _⟩ := perm_start_guess_elim q hq
    simp only [transposeGrid, cell, List.getD_cons_zero, List.getD_cons_succ, List.cons.injEq,
      and_true] at h
    obtain ⟨e0, e3, e6, e1, e4, e7, e2, e5, e8⟩ := h
    rw [e0, e1, e2, e3, e4, e5, e6, e7, e8]
  · intro p hp hs _
    obtain ⟨h1, h2, _⟩ := transposeGrid_spec a b c d p hp hs
    exact ⟨h1, blank_cluesMatch _ _ _ _ _, h2⟩

theorem countSolutions_mirror (a b c d : Int) :
    (blankPuzzle b a d c).countSolutions = (blankPuzzle a b c d).countSolutions :=
  le_antisymm (countSolutions_mirror_le b a d c) (countSolutions_mirror_le a b c d)

theorem countSolutions_transpose (a b c d : Int) :
    (blankPuzzle a c b d).countSolutions = (blankPuzzle a b c d).countSolutions :=
  le_antisymm (countSolutions_transpose_le a c b d) (countSolutions_transpose_le a b c d)

/-- C15. Solution counts are invariant under the 8 symmetries used for deduplication: with
all clues blank, for all integer sums `(a, b, c, d)`, `countSolutions` for each of
`(b,a,d,c)`, `(c,d,a,b)`, `(a,c,b,d)`, `(d,b,c,a)`, `(c,a,d,b)`, `(b,d,a,c)`, `(d,c,b,a)`
equals `countSolutions` for `(a,b,c,d)`. -/
theorem countSolutions_symmetric (a b c d : Int) :
    (blankPuzzle b a d c).countSolutions = (blankPuzzle a b c d).countSolutions ∧
    (blankPuzzle c d a b).countSolutions = (blankPuzzle a b c d).countSolutions ∧
    (blankPuzzle a c b d).countSolutions = (blankPuzzle a b c d).countSolutions ∧
    (blankPuzzle d b c a).countSolutions = (blankPuzzle a b c d).countSolutions ∧
    (blankPuzzle c a d b).countSolutions = (blankPuzzle a b c d).countSolutions ∧
    (blankPuzzle b d a c).countSolutions = (blankPuzzle a b c d).countSolutions ∧
    (blankPuzzle d c b a).countSolutions = (blankPuzzle a b c d).countSolutions := by
  have hH := countSolutions_mirror
  have hD := countSolutions_transpose
  have h1 : (blankPuzzle c a d b).countSolutions = (blankPuzzle a b c d).countSolutions :=
    (hH a c b d).trans (hD a b c d)
  have h2 : (blankPuzzle c d a b).countSolutions = (blankPuzzle a b c d).countSolutions :=
    (hD c a d b).trans h1
  have h3 : (blankPuzzle b d a c).countSolutions = (blankPuzzle a b c d).countSolutions :=
    (hD b a d c).trans (hH a b c d)
  have h4 : (blankPuzzle d b c a).countSolutions = (blankPuzzle a b c d).countSolutions :=
    (hH b d a c).trans h3
  have h5 : (blankPuzzle d c b a).countSolutions = (blankPuzzle a b c d).countSolutions :=
    (hD d b c a).trans h4
  exact ⟨hH a b c d, h2, hD a b c d, h4, h1, h3, h5⟩

/-! ## Parsing -/

theorem getline_append (A R : List Char) (h : ∀ c ∈ A, c ≠ ',') :
    getline (A ++ ',' :: R) ',' = (A, R) := by
  induction A with
  | nil => simp [getline]
  | cons a A ih =>
    have ha : a ≠ ',' := h a (List.mem_cons_self _ _)
    have ih2 := ih (fun c hc => h c (List.mem_cons_of_mem _ hc))
    unfold getline at ih2 ⊢
    simp only [Prod.mk.injEq] at ih2
    simp only [List.cons_append, List.takeWhile_cons, List.dropWhile_cons, bne_iff_ne, ne_eq, ha,
      not_false_eq_true, ↓reduceIte, Prod.mk.injEq, List.cons.injEq, true_and]
    exact ih2

theorem getline_end (D : List Char) (h : ∀ c ∈ D, c ≠ ',') : (getline D ',').1 = D := by
  unfold getline
  simp only
  rw [List.takeWhile_eq_self_iff]
  intro c hc
  simpa using h c hc

theorem streamExtractInt_old (ds : List Char) (old : Int) (h : ds ≠ []) :
    streamExtractInt ds old = streamExtractInt ds 0 := by
  cases ds with
  | nil => exact absurd rfl h
  | cons c cs => rfl

theorem digits_byte : ∀ n < 256,
    (∀ c ∈ Nat.toDigits 10 n, isspace c = false ∧ c ≠ ',') ∧
    Nat.toDigits 10 n ≠ [] ∧ streamExtractInt (Nat.toDigits 10 n) 0 = (n : Int) := by
  decide!

theorem ofString_fields (init : Sujiko) (A B C D : List Char) (a b c d : Int)
    (hA : ∀ x ∈ A, isspace x = false ∧ x ≠ ',') (hB : ∀ x ∈ B, isspace x = false ∧ x ≠ ',')
    (hC : ∀ x ∈ C, isspace x = false ∧ x ≠ ',') (hD : ∀ x ∈ D, isspace x = false ∧ x ≠ ',')
    (ha : streamExtractInt A (init.mCentres 0) = a)
    (hb : streamExtractInt B (init.mCentres 1) = b)
    (hc : streamExtractInt C (init.mCentres 2) = c)
    (hd : streamExtractInt D (init.mCentres 3) = d) :
    Sujiko.ofString init
        (['0', '0', '0', '0', '0', '0', '0', '0', '0', '/'] ++ A ++ [','] ++ B ++ [',']
          ++ C ++ [','] ++ D) = (blankPuzzle a b c d, []) := by
  have hform : (['0', '0', '0', '0', '0', '0', '0', '0', '0', '/'] ++ A ++ [','] ++ B ++ [',']
      ++ C ++ [','] ++ D) =
      '0' :: '0' :: '0' :: '0' :: '0' :: '0' :: '0' :: '0' :: '0' :: '/' ::
        (A ++ ',' :: (B ++ ',' :: (C ++ ',' :: D))) := by
    simp only [List.append_assoc, List.cons_append, List.nil_append]
  rw [hform]
  have hfilter : ('0' :: '0' :: '0' :: '0' :: '0' :: '0' :: '0' :: '0' :: '0' :: '/' ::
        (A ++ ',' :: (B ++ ',' :: (C ++ ',' :: D)))).filter (fun x => !isspace x) =
      '0' :: '0' :: '0' :: '0' :: '0' :: '0' :: '0' :: '0' :: '0' :: '/' ::
        (A ++ ',' :: (B ++ ',' :: (C ++ ',' :: D))) := by
    rw [List.filter_eq_self]
    intro x hx
    have h0 : isspace '0' = false := by decide
    have h1 : isspace '/' = false := by decide
    have h2 : isspace ',' = false := by decide
    simp only [List.mem_cons, List.mem_append] at hx
    rcases hx with h | h | h | h | h | h | h | h | h | h | h | h | h | h | h | h | h
    all_goals first
      | (rw [h, h0]; rfl)
      | (rw [h, h1]; rfl)
      | (rw [h, h2]; rfl)
      | (rw [(hA x h).1]; rfl)
      | (rw [(hB x h).1]; rfl)
      | (rw [(hC x h).1]; rfl)
      | (rw [(hD x h).1]; rfl)
  unfold Sujiko.ofString
  simp only [hfilter]
  have h9 : ('0' :: '0' :: '0' :: '0' :: '0' :: '0' :: '0' :: '0' :: '0' :: '/' ::
        (A ++ ',' :: (B ++ ',' :: (C ++ ',' :: D)))).getD 9 (Char.ofNat 0) = '/' := rfl
  rw [if_neg (fun h => h h9)]
  have hdrop : ('0' :: '0' :: '0' :: '0' :: '0' :: '0' :: '0' :: '0' :: '0' :: '/' ::
        (A ++ ',' :: (B ++ ',' :: (C ++ ',' :: D)))).drop 10 =
      A ++ ',' :: (B ++ ',' :: (C ++ ',' :: D)) := rfl
  rw [hdrop, getline_append A _ (fun x hx => (hA x hx).2)]
  simp only
  rw [getline_append B _ (fun x hx => (hB x hx).2)]
  simp only
  rw [getline_append C _ (fun x hx => (hC x hx).2)]
  simp only
  rw [getline_end D (fun x hx => (hD x hx).2), ha, hb, hc, hd]
  unfold blankPuzzle
  congr 2
  funext i
  fin_cases i <;> rfl

theorem decodeKey_lt (k : Nat) :
    (decodeKey k).1 < 256 ∧ (decodeKey k).2.1 < 256 ∧ (decodeKey k).2.2.1 < 256 ∧
      (decodeKey k).2.2.2 < 256 := by
  rw [decodeKey_eq]
  simp only
  omega

/-- The constructor turns the text that `Info` builds for a key into the clue-free puzzle
whose sums are the four bytes of the key, and prints nothing. -/
theorem ofString_puzDefString (init : Sujiko) (k : Nat) :
    Sujiko.ofString init (puzDefString k) =
      (blankPuzzle ((decodeKey k).1 : Int) ((decodeKey k).2.1 : Int)
        ((decodeKey k).2.2.1 : Int) ((decodeKey k).2.2.2 : Int), []) := by
  obtain ⟨h1, h2, h3, h4⟩ := decodeKey_lt k
  obtain ⟨a1, a2, a3⟩ := digits_byte _ h1
  obtain ⟨b1, b2, b3⟩ := digits_byte _ h2
  obtain ⟨c1, c2, c3⟩ := digits_byte _ h3
  obtain ⟨d1, d2, d3⟩ := digits_byte _ h4
  unfold puzDefString
  apply ofString_fields init _ _ _ _ _ _ _ _ a1 b1 c1 d1
  · rw [streamExtractInt_old _ _ a2, a3]
  · rw [streamExtractInt_old _ _ b2, b3]
  · rw [streamExtractInt_old _ _ c2, c3]
  · rw [streamExtractInt_old _ _ d2, d3]

/-- C12 (as the code has it). Parsing the definition string `000708000/22,15,17,21` with the
`Sujiko(string)` constructor yields sums (22,15,17,21) and a clue array that is blank (0)
everywhere except position 3, which holds 7, and position 5, which holds 8 (0-indexed,
row-major); nothing is printed. -/
theorem ofString_example (init : Sujiko) :
    "000708000/22,15,17,21".toList = exampleDefinition ∧
    (∀ i : Fin 9, (Sujiko.ofString init exampleDefinition).1.mClues i =
      [0, 0, 0, 7, 0, 8, 0, 0, 0].getD i.val 0) ∧
    (∀ k : Fin 4, (Sujiko.ofString init exampleDefinition).1.mCentres k =
      [22, 15, 17, 21].getD k.val 0) ∧
    (Sujiko.ofString init exampleDefinition).2 = [] := by
  refine ⟨by decide, ?_, ?_, rfl⟩
  · intro i
    fin_cases i <;> rfl
  · intro k
    fin_cases k <;> rfl

/-- C12 fails as stated: in the clue array parsed from `000708000/22,15,17,21` position 5
holds 8, not 7, and position 3 is not blank but holds 7. -/
theorem ofString_example_not_as_claimed :
    (Sujiko.ofString (blankPuzzle 0 0 0 0) "000708000/22,15,17,21".toList).1.mClues 5 ≠ 7 ∧
    (Sujiko.ofString (blankPuzzle 0 0 0 0) "000708000/22,15,17,21".toList).1.mClues 3 ≠ 0 := by
  decide

/-- On a text within `DefinedText` whose character at index 9 (after white space removal)
is not `/`, the constructor prints `Parse Error`, has taken the clues from the first nine
characters and returns without assigning the sums. -/
theorem ofString_parse_error (init : Sujiko) (arg : List Char) (_hdef : DefinedText arg)
    (h : (arg.filter (fun c => !isspace c)).getD 9 (Char.ofNat 0) ≠ '/') :
    Sujiko.ofString init arg =
      ({ mClues := fun i =>
            (((arg.filter (fun c => !isspace c)).getD i.val (Char.ofNat 0)).toNat : Int) - 48,
         mCentres := init.mCentres }, ["Parse Error"]) := by
  unfold Sujiko.ofString
  simp only
  rw [if_pos h]

theorem definedText_nine_zeros : DefinedText "000000000".toList := by
  unfold DefinedText
  decide

theorem definedText_exampleDefinition : DefinedText exampleDefinition := by
  unfold DefinedText
  decide

theorem ofString_nine_zeros (init : Sujiko) :
    Sujiko.ofString init "000000000".toList =
      ({ mClues := fun _ => 0, mCentres := init.mCentres }, ["Parse Error"]) := by
  rw [ofString_parse_error _ _ definedText_nine_zeros (by decide)]
  congr 2
  funext i
  fin_cases i <;> rfl

theorem digits_ascii : ∀ n < 256, ∀ c ∈ Nat.toDigits 10 n, c.toNat < 128 := by
  decide!

/-- The text that `Info` builds for a key is within `DefinedText`. -/
theorem definedText_puzDefString (k : Nat) : DefinedText (puzDefString k) := by
  obtain ⟨h1, h2, h3, h4⟩ := decodeKey_lt k
  have hform : puzDefString k =
      ['0', '0', '0', '0', '0', '0', '0', '0', '0', '/'] ++
        (Nat.toDigits 10 (decodeKey k).1 ++ ([','] ++ (Nat.toDigits 10 (decodeKey k).2.1 ++
          ([','] ++ (Nat.toDigits 10 (decodeKey k).2.2.1 ++
            ([','] ++ Nat.toDigits 10 (decodeKey k).2.2.2)))))) := by
    unfold puzDefString
    simp only [List.append_assoc]
  rw [hform]
  constructor
  · intro c hc
    simp only [List.mem_append] at hc
    rcases hc with hc | hc | hc | hc | hc | hc | hc | hc
    · revert c
      decide
    · exact digits_ascii _ h1 c hc
    · revert c
      decide
    · exact digits_ascii _ h2 c hc
    · revert c
      decide
    · exact digits_ascii _ h3 c hc
    · revert c
      decide
    · exact digits_ascii _ h4 c hc
  · rw [List.filter_append, List.length_append]
    have : (List.filter (fun c => !isspace c)
        ['0', '0', '0', '0', '0', '0', '0', '0', '0', '/']).length = 10 := by decide
    omega

/-- C13, at the failing input `-s 000000000`. The text has nine characters and no `/` at
index 9. The constructor prints `Parse Error` and returns without assigning the sums; solve
mode does not stop there: whatever the sums of the object hold, it prints `Solving Puzzle:`
and the puzzle, runs `allSolutions` on the object, fills the solution vector with its result
and prints `Found N solutions:` followed by the solutions. -/
theorem parse_error_solver_runs (init : Sujiko) :
    DefinedText "000000000".toList ∧
    ("000000000".toList.filter (fun c => !isspace c)).getD 9 (Char.ofNat 0) ≠ '/' ∧
    (Sujiko.ofString init "000000000".toList).2 = ["Parse Error"] ∧
    (mainSolve init "000000000".toList).2 =
      (Sujiko.mk (fun _ => 0) init.mCentres).allSolutions [] ∧
    (mainSolve init "000000000".toList).1 =
      ["Parse Error", "Solving Puzzle:"] ++ (Sujiko.mk (fun _ => 0) init.mCentres).Display
        ++ ["Found " ++ toString ((Sujiko.mk (fun _ => 0) init.mCentres).allSolutions []).length
              ++ " solutions:"]
        ++ ((Sujiko.mk (fun _ => 0) init.mCentres).allSolutions []).flatMap
              (fun s => s.DisplaySolution ++ [""]) := by
  refine ⟨definedText_nine_zeros, by decide, by rw [ofString_nine_zeros], ?_, ?_⟩
  · unfold mainSolve
    simp only [ofString_nine_zeros]
  · unfold mainSolve
    simp only [ofString_nine_zeros, List.singleton_append, List.cons_append, List.nil_append]

/-! ## Aggregation in `Info` -/

theorem keySolCount_nonneg (k : Nat) : 0 ≤ keySolCount k := by
  unfold keySolCount Sujiko.countSolutions
  exact Int.natCast_nonneg _

theorem infoStep_counters (init : Sujiko) (st : InfoState) (k : Nat) (hb : 0 ≤ st.bestSolCount) :
    (infoStep init st k).count = st.count + 1 ∧
    (infoStep init st k).anySolCount = st.anySolCount + (if 1 ≤ keySolCount k then 1 else 0) ∧
    (infoStep init st k).singleSolCount =
      st.singleSolCount + (if keySolCount k = 1 then 1 else 0) ∧
    (infoStep init st k).bestSolCount = max st.bestSolCount (keySolCount k) := by
  have hpos := keySolCount_nonneg k
  simp only [infoStep, ofString_puzDefString]
  have hk : (blankPuzzle ((decodeKey k).1 : Int) ((decodeKey k).2.1 : Int)
      ((decodeKey k).2.2.1 : Int) ((decodeKey k).2.2.2 : Int)).countSolutions = keySolCount k := by
    unfold keySolCount
    rfl
  rw [hk]
  by_cases h0 : keySolCount k > 0
  · rw [if_pos h0]
    simp only
    refine ⟨trivial, ?_, ?_, ?_⟩
    · rw [if_pos (by omega)]
    · by_cases h1 : keySolCount k = 1
      · rw [if_pos h1, if_pos h1]
      · rw [if_neg h1, if_neg h1, add_zero]
    · by_cases h2 : keySolCount k > st.bestSolCount
      · rw [if_pos h2]
        omega
      · rw [if_neg h2]
        omega
  · rw [if_neg h0]
    simp only
    refine ⟨trivial, ?_, ?_, ?_⟩
    · rw [if_neg (by omega), add_zero]
    · rw [if_neg (by omega), add_zero]
    · omega

theorem info_foldl (init : Sujiko) (keys : List Nat) (st0 : InfoState)
    (hb : 0 ≤ st0.bestSolCount) :
    (keys.foldl (infoStep init) st0).count = st0.count + (keys.length : Int) ∧
    (keys.foldl (infoStep init) st0).anySolCount =
      st0.anySolCount + (keys.countP (fun k => decide (1 ≤ keySolCount k)) : Int) ∧
    (keys.foldl (infoStep init) st0).singleSolCount =
      st0.singleSolCount + (keys.countP (fun k => decide (keySolCount k = 1)) : Int) ∧
    st0.bestSolCount ≤ (keys.foldl (infoStep init) st0).bestSolCount ∧
    (∀ k ∈ keys, keySolCount k ≤ (keys.foldl (infoStep init) st0).bestSolCount) ∧
    ((keys.foldl (infoStep init) st0).bestSolCount = st0.bestSolCount ∨
      ∃ k ∈ keys, keySolCount k = (keys.foldl (infoStep init) st0).bestSolCount) := by
  induction keys generalizing st0 with
  | nil => simp
  | cons k keys ih =>
    obtain ⟨s1, s2, s3, s4⟩ := infoStep_counters init st0 k hb
    have hb2 : 0 ≤ (infoStep init st0 k).bestSolCount := by
      rw [s4]
      exact le_trans hb (le_max_left _ _)
    obtain ⟨i1, i2, i3, i4, i5, i6⟩ := ih (infoStep init st0 k) hb2
    rw [List.foldl_cons]
    refine ⟨?_, ?_, ?_, ?_, ?_, ?_⟩
    · rw [i1, s1, List.length_cons]
      push_cast
      ring
    · rw [i2, s2, List.countP_cons]
      by_cases h : 1 ≤ keySolCount k
      · simp only [h, decide_True, if_true]
        push_cast
        ring
      · simp only [h, decide_False, if_false]
        push_cast
        ring
    · rw [i3, s3, List.countP_cons]
      by_cases h : keySolCount k = 1
      · simp only [h, decide_True, if_true]
        push_cast
        ring
      · simp only [h, decide_False, if_false]
        push_cast
        ring
    · rw [s4] at i4
      exact le_trans (le_max_left _ _) i4
    · intro x hx
      rcases List.mem_cons.1 hx with rfl | hx
      · rw [s4] at i4
        exact le_trans (le_max_right _ _) i4
      · exact i5 x hx
    · rcases i6 with h | ⟨x, hx, h⟩
      · rw [h, s4]
        rcases max_choice st0.bestSolCount (keySolCount k) with hm | hm
        · left
          exact hm
        · right
          exact ⟨k, List.mem_cons_self _ _, hm.symm⟩
      · right
        exact ⟨x, List.mem_cons_of_mem _ hx, h⟩

/-- C14. Batch aggregation in `Info`: for every sequence of keys iterated, every key's
puzzle is the clue-free puzzle with the key's four bytes as sums, and the final counters
satisfy: `count` is the number of keys, `anySolCount` the number of keys whose puzzle has
`countSolutions >= 1`, `singleSolCount` the number whose `countSolutions = 1`, and
`bestSolCount` the maximum of `countSolutions` over all keys (0 if none is solvable); hence
`singleSolCount <= anySolCount <= count`. -/
theorem info_aggregates (init : Sujiko) (processingTime : String) (keys : List Nat) :
    (∀ k : Nat, (Sujiko.ofString init (puzDefString k)).1.countSolutions = keySolCount k) ∧
    (Info init processingTime keys).count = (keys.length : Int) ∧
    (Info init processingTime keys).anySolCount =
      (keys.countP (fun k => decide (1 ≤ keySolCount k)) : Int) ∧
    (Info init processingTime keys).singleSolCount =
      (keys.countP (fun k => decide (keySolCount k = 1)) : Int) ∧
    (∀ k ∈ keys, keySolCount k ≤ (Info init processingTime keys).bestSolCount) ∧
    ((Info init processingTime keys).bestSolCount = 0 ∨
      ∃ k ∈ keys, keySolCount k = (Info init processingTime keys).bestSolCount) ∧
    (Info init processingTime keys).singleSolCount ≤
      (Info init processingTime keys).anySolCount ∧
    (Info init processingTime keys).anySolCount ≤ (Info init processingTime keys).count := by
  have hfold := info_foldl init keys
    { count := 0, bestSolCount := 0, singleSolCount := 0, anySolCount := 0
      out := ["Number of ways to layout a puzzle = " ++ toString keys.length,
              "Solving all possible puzzles..."] } (le_refl _)
  simp only [zero_add] at hfold
  obtain ⟨h1, h2, h3, _, h5, h6⟩ := hfold
  have hc : ∀ (st : InfoState) (o : List String),
      ({ st with out := o } : InfoState).count = st.count ∧
      ({ st with out := o } : InfoState).anySolCount = st.anySolCount ∧
      ({ st with out := o } : InfoState).singleSolCount = st.singleSolCount ∧
      ({ st with out := o } : InfoState).bestSolCount = st.bestSolCount :=
    fun _ _ => ⟨rfl, rfl, rfl, rfl⟩
  unfold Info
  simp only [hc]
  have e1 := h1
  have e2 := h2
  have e3 := h3
  refine ⟨?_, e1, e2, e3, h5, h6, ?_, ?_⟩
  · intro k
    rw [ofString_puzDefString]
    unfold keySolCount
    simp only
  · rw [e2, e3]
    have : keys.countP (fun k => decide (keySolCount k = 1)) ≤
        keys.countP (fun k => decide (1 ≤ keySolCount k)) := by
      apply List.countP_mono_left
      intro x _ hx
      simp only [decide_eq_true_eq] at hx ⊢
      omega
    exact_mod_cast this
  · rw [e1, e2]
    exact_mod_cast List.countP_le_length _

end SujikoCpp
